import Mathlib

/-!
Verification development for the tokentrove corpus-indexing pipeline.

The Go source is shallowly embedded: a corpus is a list of
(relative path, normalized text content) pairs, file contents are strings,
and the pure cores of the cache builders (`BuildTokenCache`,
`BuildNgramCache`, `BuildNgramFreqCache`, `BuildNgramFilesCache` in
pkg/cache.go), the n-gram loader (`loadNgramsWithFiles` in
pkg/web/server.go) and the three chain-search report generators
(`generateRecurringTextReport`, `generateLinkedNgramsReport`,
`generateBestChainsReport`) are modelled as total Lean functions.

Go `map` iteration order is unspecified; maps whose iteration order can
influence output are modelled as association lists in key-insertion order
(a fixed representative of the unspecified order).  All invariants proved
below are independent of that order, and every concrete evaluation is of a
computation whose result set does not depend on it (no result cap is hit
and result identity is order-free).  `sort.Strings` / `sort.Slice` are
modelled with `List.insertionSort`: on the duplicate-free keys being
sorted the result is the unique sorted arrangement, and for the
`sort.Slice` ranking comparators only sortedness (not the unspecified tie
order) is ever asserted.
-/

namespace TokenTrove

/-! ## Tokenization: Go `strings.Fields` and `unicode.IsSpace` -/

/-- Go `unicode.IsSpace` (the whitespace set used by `strings.Fields` and
`strings.TrimSpace`): ASCII whitespace plus the Unicode space characters. -/
def isGoSpace (c : Char) : Bool :=
  c = ' ' || c = '\t' || c = '\n' || c.val = 11 || c.val = 12 || c = '\r' ||
  c.val = 0x85 || c.val = 0xA0 || c.val = 0x1680 ||
  (0x2000 ≤ c.val && c.val ≤ 0x200A) ||
  c.val = 0x2028 || c.val = 0x2029 || c.val = 0x202F || c.val = 0x205F || c.val = 0x3000

/-- Accumulator pass of `strings.Fields`: split around maximal runs of
whitespace, dropping empty fields.  `acc` holds the current field reversed. -/
def fieldsAux : List Char → List Char → List (List Char)
  | [], acc => if acc.isEmpty then [] else [acc.reverse]
  | c :: rest, acc =>
    if isGoSpace c then
      if acc.isEmpty then fieldsAux rest [] else acc.reverse :: fieldsAux rest []
    else fieldsAux rest (c :: acc)

/-- Go `strings.Fields`. -/
def fields (s : String) : List String :=
  (fieldsAux s.data []).map (fun l => ⟨l⟩)

/-! ## Dictionary builder (`BuildTokenCache`, pkg/cache.go)

`BuildTokenCache` walks the input directory, collects every
whitespace-separated token of every file into a set, collects the relative
paths in walk order, then sorts the token set with `sort.Strings` and
writes one token per line to uniq.txt and one path per line to files.txt.
The corpus is modelled as the walk-ordered list of (relative path, content)
pairs.  Scanning a file line-by-line and applying `strings.Fields` to each
line yields the same token list as applying `fields` to the whole content,
since the line separator is itself field whitespace. -/

/-- All tokens of the corpus, in scan order (with repetitions). -/
def corpusTokens (corpus : List (String × String)) : List String :=
  (corpus.map (fun f => fields f.2)).flatten

/-- Strict lexicographic comparison of character lists by code point.
`sort.Strings` compares Go strings by UTF-8 bytes, and UTF-8 byte order
coincides with code-point order, so this is exactly the Go string `<`. -/
def charListLtb : List Char → List Char → Bool
  | _, [] => false
  | [], _ :: _ => true
  | a :: as, b :: bs =>
    if a.toNat < b.toNat then true
    else if b.toNat < a.toNat then false
    else charListLtb as bs

/-- Go string `a < b`. -/
def strLtGo (a b : String) : Prop := charListLtb a.data b.data = true

/-- Go string `a ≤ b`, the order `sort.Strings` establishes. -/
def strLeGo (a b : String) : Prop := charListLtb b.data a.data = false

instance : DecidableRel strLtGo := fun a b =>
  inferInstanceAs (Decidable (_ = true))

instance : DecidableRel strLeGo := fun a b =>
  inferInstanceAs (Decidable (_ = false))

theorem charListLtb_irrefl : ∀ l, charListLtb l l = false
  | [] => rfl
  | a :: as => by simp [charListLtb, charListLtb_irrefl as]

theorem charListLtb_asymm : ∀ {l1 l2},
    charListLtb l1 l2 = true → charListLtb l2 l1 = false
  | [], [], h => Bool.noConfusion h
  | _ :: _, [], h => Bool.noConfusion h
  | [], _ :: _, _ => rfl
  | a :: as, b :: bs, h => by
    rcases Nat.lt_trichotomy a.toNat b.toNat with hab | hab | hab
    · simp [charListLtb, hab, Nat.lt_asymm hab]
    · simp only [charListLtb, hab, lt_self_iff_false, if_false] at h ⊢
      exact charListLtb_asymm h
    · simp [charListLtb, hab, Nat.lt_asymm hab] at h
  termination_by l1 l2 => l1.length

theorem charListLtb_eq_of_not : ∀ {l1 l2},
    charListLtb l1 l2 = false → charListLtb l2 l1 = false → l1 = l2
  | [], [], _, _ => rfl
  | [], _ :: _, h, _ => Bool.noConfusion h
  | _ :: _, [], _, h => Bool.noConfusion h
  | a :: as, b :: bs, h1, h2 => by
    rcases Nat.lt_trichotomy a.toNat b.toNat with hab | hab | hab
    · simp [charListLtb, hab] at h1
    · have hchar : a = b := Char.ext (UInt32.toNat.inj hab)
      subst hchar
      simp only [charListLtb, lt_self_iff_false, if_false] at h1 h2
      rw [charListLtb_eq_of_not h1 h2]
    · simp [charListLtb, hab] at h2
  termination_by l1 l2 => l1.length

theorem charListLtb_trans : ∀ {l1 l2 l3},
    charListLtb l1 l2 = true → charListLtb l2 l3 = true → charListLtb l1 l3 = true
  | _, l2, [], _, h2 => by cases l2 <;> simp [charListLtb] at h2
  | [], _ :: _, _ :: _, _, _ => rfl
  | _ :: _, [], _ :: _, h1, _ => by cases h1
  | a :: as, b :: bs, c :: cs, h1, h2 => by
    rcases Nat.lt_trichotomy a.toNat b.toNat with hab | hab | hab
    · rcases Nat.lt_trichotomy b.toNat c.toNat with hbc | hbc | hbc
      · simp [charListLtb, Nat.lt_trans hab hbc]
      · simp [charListLtb, hbc ▸ hab]
      · simp [charListLtb, hbc, Nat.lt_asymm hbc] at h2
    · rcases Nat.lt_trichotomy b.toNat c.toNat with hbc | hbc | hbc
      · simp [charListLtb, hab ▸ hbc]
      · have hac : a.toNat = c.toNat := hab.trans hbc
        simp only [charListLtb, hab, hbc, hac, lt_self_iff_false, if_false]
          at h1 h2 ⊢
        exact charListLtb_trans h1 h2
      · simp [charListLtb, hbc, Nat.lt_asymm hbc] at h2
    · simp [charListLtb, hab, Nat.lt_asymm hab] at h1
  termination_by l1 _ _ => l1.length

instance : IsTotal String strLeGo :=
  ⟨fun a b => by
    unfold strLeGo
    cases h : charListLtb a.data b.data
    · exact Or.inr rfl
    · exact Or.inl (charListLtb_asymm h)⟩

instance : IsTrans String strLeGo :=
  ⟨fun a b c hab hbc => by
    unfold strLeGo at *
    cases hca : charListLtb c.data a.data
    · rfl
    · exfalso
      cases hba : charListLtb a.data b.data
      · have heq : a.data = b.data := charListLtb_eq_of_not hba hab
        rw [heq] at hca
        exact Bool.noConfusion (hca.symm.trans hbc)
      · exact Bool.noConfusion ((charListLtb_trans hca hba).symm.trans hbc)⟩

/-- The sorted unique word table (uniq.txt): the token set sorted
lexicographically.  The set has no duplicates, so any correct sort —
`sort.Strings` in Go, `insertionSort` here — produces the same list. -/
def sortedWords (corpus : List (String × String)) : List String :=
  ((corpusTokens corpus).dedup).insertionSort strLeGo

/-- The file table (files.txt): relative paths in walk order. -/
def fileTable (corpus : List (String × String)) : List String :=
  corpus.map Prod.fst

/-- Word ID assignment used by every later stage: the word's line number in
uniq.txt (`wordToIndex` maps in pkg/cache.go). -/
def wordId (corpus : List (String × String)) (w : String) : Nat :=
  (sortedWords corpus).indexOf w

/-- Lookup into `wordToIndex` together with the `ok` flag of the Go map
access: `none` when the word is not in the dictionary. -/
def lookupId (ws : List String) (w : String) : Option Nat :=
  if w ∈ ws then some (ws.indexOf w) else none

/-! Basic facts about the word table. -/

theorem mem_sortedWords {corpus : List (String × String)} {w : String} :
    w ∈ sortedWords corpus ↔ w ∈ corpusTokens corpus := by
  unfold sortedWords
  rw [(List.perm_insertionSort _ _).mem_iff, List.mem_dedup]

theorem nodup_sortedWords (corpus : List (String × String)) :
    (sortedWords corpus).Nodup :=
  (List.perm_insertionSort _ _).nodup_iff.mpr (List.nodup_dedup _)

theorem sorted_sortedWords (corpus : List (String × String)) :
    (sortedWords corpus).Sorted strLeGo :=
  List.sorted_insertionSort _ _

/-! ## Output state of `BuildTokenCache`

`BuildTokenCache` unconditionally recreates settings.txt, uniq.txt and
files.txt (`os.WriteFile` / `os.Create` truncate): the previous contents of
the output directory are never read.  The builder is modelled as a
transformer of the output-directory state. -/

/-- The three files `BuildTokenCache` owns in the output directory
(`none` = the file does not exist yet). -/
structure TokenCacheState where
  settings : Option String
  uniq : Option String
  files : Option String

/-- One line per list element, as the writers in `BuildTokenCache` emit. -/
def serializeLines (ls : List String) : String :=
  String.join (ls.map (fun l => l ++ "\n"))

/-- The output-state transformer of `BuildTokenCache`: overwrite all three
files from the scan of the input corpus, ignoring the previous state. -/
def runBuildTokenCache (inputDir : String) (corpus : List (String × String))
    (_prev : TokenCacheState) : TokenCacheState :=
  { settings := some ("input=" ++ inputDir ++ "\n")
    uniq := some (serializeLines (sortedWords corpus))
    files := some (serializeLines (fileTable corpus)) }

/-- Claim C7: running the dictionary builder twice on an unchanged input
directory tree produces byte-identical word tables (uniq.txt) and
byte-identical file tables (files.txt).  Because the builder truncates and
rewrites its outputs without reading them, the second run maps the first
run's output state to the very same state. -/
theorem buildTokenCache_idempotent (inputDir : String)
    (corpus : List (String × String)) (st : TokenCacheState) :
    runBuildTokenCache inputDir corpus (runBuildTokenCache inputDir corpus st) =
      runBuildTokenCache inputDir corpus st ∧
    (runBuildTokenCache inputDir corpus (runBuildTokenCache inputDir corpus st)).uniq =
      (runBuildTokenCache inputDir corpus st).uniq ∧
    (runBuildTokenCache inputDir corpus (runBuildTokenCache inputDir corpus st)).files =
      (runBuildTokenCache inputDir corpus st).files :=
  ⟨rfl, rfl, rfl⟩

/-! ## Claim C4: word IDs are a bijection with the sorted word set -/

/-- Claim C4: for every word `w` observed in the corpus, looking the word
table up at `w`'s assigned ID returns `w`; the assignment is strictly
increasing in lexicographic order (`strLtGo`, the Go string `<` that
`sort.Strings` sorts by); and the IDs are dense in `[0, V)` where `V` is
the word-table size. -/
theorem word_ids_bijection (corpus : List (String × String)) (w : String)
    (hw : w ∈ corpusTokens corpus) :
    (sortedWords corpus).get? (wordId corpus w) = some w ∧
    wordId corpus w < (sortedWords corpus).length ∧
    (∀ w', w' ∈ corpusTokens corpus → strLtGo w w' →
      wordId corpus w < wordId corpus w') ∧
    (∀ i, i < (sortedWords corpus).length →
      ∃ u, u ∈ corpusTokens corpus ∧ wordId corpus u = i) := by
  have hmem : w ∈ sortedWords corpus := mem_sortedWords.mpr hw
  have hlt : wordId corpus w < (sortedWords corpus).length :=
    List.indexOf_lt_length.mpr hmem
  refine ⟨List.indexOf_get? hmem, hlt, ?_, ?_⟩
  · intro w' hw' hww'
    have hmem' : w' ∈ sortedWords corpus := mem_sortedWords.mpr hw'
    have hlt' : wordId corpus w' < (sortedWords corpus).length :=
      List.indexOf_lt_length.mpr hmem'
    by_contra hnot
    have hge : wordId corpus w' ≤ wordId corpus w := Nat.le_of_not_lt hnot
    have e1 : (sortedWords corpus).get ⟨wordId corpus w, hlt⟩ = w :=
      List.indexOf_get hlt
    have e2 : (sortedWords corpus).get ⟨wordId corpus w', hlt'⟩ = w' :=
      List.indexOf_get hlt'
    rcases Nat.lt_or_ge (wordId corpus w') (wordId corpus w) with hjlt | hje
    · have hrel := (sorted_sortedWords corpus).rel_get_of_lt
        (a := ⟨wordId corpus w', hlt'⟩) (b := ⟨wordId corpus w, hlt⟩) hjlt
      rw [e1, e2] at hrel
      exact Bool.noConfusion (hww'.symm.trans hrel)
    · have heq : wordId corpus w = wordId corpus w' := Nat.le_antisymm hje hge
      have hww : w = w' := by
        rw [← e1, ← e2]
        exact congrArg _ (Fin.ext heq)
      subst hww
      exact Bool.noConfusion (hww'.symm.trans (charListLtb_irrefl w.data))
  · intro i hi
    refine ⟨(sortedWords corpus).get ⟨i, hi⟩, ?_, ?_⟩
    · exact mem_sortedWords.mp (List.get_mem _ _ _)
    · exact List.get_indexOf (nodup_sortedWords corpus) ⟨i, hi⟩

/-- Witness for `word_ids_bijection` at a concrete two-word corpus. -/
theorem word_ids_bijection_witness :
    ("a" ∈ corpusTokens [("f.txt", "b a")]) ∧
    ((sortedWords [("f.txt", "b a")]).get? (wordId [("f.txt", "b a")] "a") = some "a" ∧
     wordId [("f.txt", "b a")] "a" < (sortedWords [("f.txt", "b a")]).length ∧
     (∀ w', w' ∈ corpusTokens [("f.txt", "b a")] → strLtGo "a" w' →
       wordId [("f.txt", "b a")] "a" < wordId [("f.txt", "b a")] w') ∧
     (∀ i, i < (sortedWords [("f.txt", "b a")]).length →
       ∃ u, u ∈ corpusTokens [("f.txt", "b a")] ∧ wordId [("f.txt", "b a")] u = i)) :=
  ⟨by decide, word_ids_bijection [("f.txt", "b a")] "a" (by decide)⟩

/-! ## N-gram frequency builder (`BuildNgramFreqCache`, pkg/cache.go)

For each file the builder tokenizes, keeps only tokens present in the
dictionary (the `ok` branch of the `wordToIndex` lookup), slides a window
of width `n` over the word-ID sequence, and increments a counter per
n-gram key.  The Go key is the `|`-joined decimal rendering of the ID
tuple, an injective encoding of the tuple, so the map is keyed here by the
ID list itself.  The count map is modelled as an association list in
first-insertion order (a fixed representative of Go's unspecified map
iteration order; every property proved is order-independent). -/

/-- The word-ID sequence of one file (tokens missing from the dictionary
are dropped, as in the Go `ok` check). -/
def wordIdSeq (ws : List String) (content : String) : List Nat :=
  (fields content).filterMap (fun w => lookupId ws w)

/-- All width-`n` windows of a sequence: `for i := 0; i <= len(words)-n`. -/
def windows (n : Nat) (l : List Nat) : List (List Nat) :=
  (List.range (l.length + 1 - n)).map (fun i => (l.drop i).take n)

/-- Every order-`n` window of every corpus file, in scan order. -/
def allWindows (corpus : List (String × String)) (n : Nat) : List (List Nat) :=
  (corpus.map (fun f => windows n (wordIdSeq (sortedWords corpus) f.2))).flatten

/-- `ngramCount[ngramKey]++`: increment the existing entry or append a new
entry with count 1. -/
def bump (m : List (List Nat × Nat)) (k : List Nat) : List (List Nat × Nat) :=
  if m.any (fun p => p.1 = k) then
    m.map (fun p => if p.1 = k then (p.1, p.2 + 1) else p)
  else m ++ [(k, 1)]

/-- The order-`n` occurrence-count map after the full corpus scan. -/
def ngramCounts (corpus : List (String × String)) (n : Nat) : List (List Nat × Nat) :=
  (allWindows corpus n).foldl bump []

/-- The `sort.Slice` comparator of `BuildNgramFreqCache`:
occurrence count descending. -/
def freqOrd (a b : List Nat × Nat) : Prop := b.2 ≤ a.2

instance : DecidableRel freqOrd := fun a b => inferInstanceAs (Decidable (b.2 ≤ a.2))

instance : IsTotal (List Nat × Nat) freqOrd := ⟨fun a b => Nat.le_total b.2 a.2⟩

instance : IsTrans (List Nat × Nat) freqOrd := ⟨fun _ _ _ hab hbc => Nat.le_trans hbc hab⟩

/-- The persisted order-`n` frequency table (`%dgramfreq.txt`): entries
with count at least 2, sorted by count descending. -/
def freqTable (corpus : List (String × String)) (n : Nat) : List (List Nat × Nat) :=
  ((ngramCounts corpus n).filter (fun p => 2 ≤ p.2)).insertionSort freqOrd

/-- The association list `m` faithfully counts the multiset `ws`. -/
def Represents (m : List (List Nat × Nat)) (ws : List (List Nat)) : Prop :=
  (m.map Prod.fst).Nodup ∧
  (∀ p ∈ m, p.2 = ws.count p.1) ∧
  (∀ k, k ∈ m.map Prod.fst ↔ k ∈ ws)

theorem represents_bump {m : List (List Nat × Nat)} {ws : List (List Nat)}
    (h : Represents m ws) (k : List Nat) : Represents (bump m k) (ws ++ [k]) := by
  obtain ⟨hnd, hcount, hmem⟩ := h
  by_cases hk : m.any (fun p => decide (p.1 = k))
  · have hbump : bump m k = m.map (fun p => if p.1 = k then (p.1, p.2 + 1) else p) := by
      simp only [bump, if_pos hk]
    have hkeys : (bump m k).map Prod.fst = m.map Prod.fst := by
      rw [hbump, List.map_map]
      refine List.map_congr_left (fun p _ => ?_)
      by_cases hpk : p.1 = k <;> simp [hpk]
    refine ⟨hkeys ▸ hnd, ?_, ?_⟩
    · intro p hp
      rw [hbump] at hp
      obtain ⟨q, hq, hqp⟩ := List.mem_map.mp hp
      by_cases hqk : q.1 = k
      · rw [if_pos hqk] at hqp
        subst hqp
        simp only [hcount q hq, List.count_append, hqk]
        simp [List.count_singleton]
      · rw [if_neg hqk] at hqp
        subst hqp
        rw [hcount q hq, List.count_append]
        simp [List.count_singleton, hqk]
    · intro k'
      rw [hkeys, hmem k', List.mem_append, List.mem_singleton]
      by_cases hk' : k' = k
      · subst hk'
        obtain ⟨p, hp, hpk⟩ := List.any_eq_true.mp hk
        have : k' ∈ m.map Prod.fst := List.mem_map.mpr ⟨p, hp, of_decide_eq_true hpk⟩
        simp [(hmem k').mp this]
      · simp [hk']
  · have hnotin : k ∉ m.map Prod.fst := by
      intro hcon
      obtain ⟨p, hp, hpk⟩ := List.mem_map.mp hcon
      exact hk (List.any_eq_true.mpr ⟨p, hp, decide_eq_true hpk⟩)
    have hbump : bump m k = m ++ [(k, 1)] := by
      simp only [bump, if_neg hk]
    have hnotws : k ∉ ws := fun hcon => hnotin ((hmem k).mpr hcon)
    refine ⟨?_, ?_, ?_⟩
    · rw [hbump, List.map_append]
      exact List.Nodup.append hnd (List.nodup_singleton _)
        (by simpa using fun hcon => hnotin hcon)
    · intro p hp
      rw [hbump, List.mem_append, List.mem_singleton] at hp
      rcases hp with hp | hp
      · have hne : p.1 ≠ k := fun hcon =>
          hnotin (hcon ▸ List.mem_map.mpr ⟨p, hp, rfl⟩)
        rw [hcount p hp, List.count_append]
        simp [List.count_singleton, hne]
      · subst hp
        simp only [List.count_append]
        rw [List.count_eq_zero.mpr hnotws]
        simp [List.count_singleton]
    · intro k'
      rw [hbump, List.map_append, List.mem_append, List.mem_append]
      simp only [List.map_singleton, List.mem_singleton]
      rw [hmem k']

theorem represents_foldl (l : List (List Nat)) :
    ∀ (m : List (List Nat × Nat)) (ws : List (List Nat)),
      Represents m ws → Represents (l.foldl bump m) (ws ++ l) := by
  induction l with
  | nil => intro m ws h; simpa using h
  | cons a t ih =>
    intro m ws h
    have := ih (bump m a) (ws ++ [a]) (represents_bump h a)
    simpa using this

theorem represents_ngramCounts (corpus : List (String × String)) (n : Nat) :
    Represents (ngramCounts corpus n) (allWindows corpus n) := by
  have := represents_foldl (allWindows corpus n) [] []
    ⟨List.nodup_nil, by simp, by simp⟩
  simpa [ngramCounts] using this

/-- Claim C5: for every order `n`, the persisted frequency table contains
exactly the n-grams whose total occurrence count over the corpus is at
least 2 (each paired with that exact count, so no count-1 n-gram ever
appears), and its lines are sorted by occurrence count descending. -/
theorem freq_table_spec (corpus : List (String × String)) (n : Nat) :
    (∀ p ∈ freqTable corpus n, 2 ≤ p.2 ∧ p.2 = (allWindows corpus n).count p.1) ∧
    (∀ g, 2 ≤ (allWindows corpus n).count g →
      (g, (allWindows corpus n).count g) ∈ freqTable corpus n) ∧
    (freqTable corpus n).Sorted freqOrd := by
  obtain ⟨hnd, hcount, hmem⟩ := represents_ngramCounts corpus n
  have hft : ∀ p, p ∈ freqTable corpus n ↔
      (p ∈ ngramCounts corpus n ∧ 2 ≤ p.2) := by
    intro p
    unfold freqTable
    rw [(List.perm_insertionSort _ _).mem_iff, List.mem_filter]
    simp
  refine ⟨?_, ?_, List.sorted_insertionSort _ _⟩
  · intro p hp
    obtain ⟨hpm, hp2⟩ := (hft p).mp hp
    exact ⟨hp2, hcount p hpm⟩
  · intro g hg
    have hgmem : g ∈ allWindows corpus n :=
      List.count_pos_iff.mp (Nat.lt_of_lt_of_le Nat.zero_lt_two hg)
    obtain ⟨p, hpm, hpk⟩ := List.mem_map.mp ((hmem g).mpr hgmem)
    have hp2 : p.2 = (allWindows corpus n).count g := hpk ▸ hcount p hpm
    have hpeq : p = (g, (allWindows corpus n).count g) := by
      cases p; simp_all
    exact (hft _).mpr ⟨hpeq ▸ hpm, hp2 ▸ hg⟩

/-! ## N-gram → files reverse index (`BuildNgramFilesCache`, pkg/cache.go)

The builder streams `%dgramindex.txt` (whose line `g` reads
`g,[f1,...,fk]`, brackets stripped by this reader), appends `g` to
`fileToNgrams[f]` for every listed file ID, then emits one line per file
ID `0..fileCount-1` with that file's n-gram ID list sorted ascending.  The
index input is modelled as the list of per-n-gram file-ID lists in n-gram
ID order, exactly what `BuildNgramCache` persists. -/

/-- The scanning loop: `g0` is the n-gram ID of the next line, `m` the
`fileToNgrams` map built so far (`m f = []` for absent keys, matching the
nil-slice default). -/
def buildRevAux : Nat → List (List Nat) → (Nat → List Nat) → Nat → List Nat
  | _, [], m => m
  | g, fs :: rest, m =>
    buildRevAux (g + 1) rest (fun f => if f ∈ fs then m f ++ [g] else m f)

/-- The `fileToNgrams` map after the full scan of the index file. -/
def fileToNgrams (index : List (List Nat)) : Nat → List Nat :=
  buildRevAux 0 index (fun _ => [])

/-- The persisted `%dgramfiles.txt`: one `(fileID, sorted n-gram IDs)` row
per file ID in file-ID order. -/
def ngramFilesCache (index : List (List Nat)) (fileCount : Nat) :
    List (Nat × List Nat) :=
  (List.range fileCount).map
    (fun f => (f, (fileToNgrams index f).insertionSort (· ≤ ·)))

theorem mem_buildRevAux (idx : List (List Nat)) :
    ∀ (g0 : Nat) (m : Nat → List Nat) (f g : Nat),
      g ∈ buildRevAux g0 idx m f ↔
        g ∈ m f ∨ ∃ j, ∃ hj : j < idx.length, g = g0 + j ∧ f ∈ idx.get ⟨j, hj⟩ := by
  induction idx with
  | nil =>
    intro g0 m f g
    simp [buildRevAux]
  | cons fs rest ih =>
    intro g0 m f g
    rw [buildRevAux, ih]
    by_cases hffs : f ∈ fs
    · simp only [if_pos hffs, List.mem_append, List.mem_singleton]
      constructor
      · rintro ((hm | hg0) | ⟨j, hj, rfl, hmem⟩)
        · exact Or.inl hm
        · exact Or.inr ⟨0, Nat.succ_pos _, by simpa using hg0, by simpa using hffs⟩
        · exact Or.inr ⟨j + 1, Nat.succ_lt_succ hj, by omega, by simpa using hmem⟩
      · rintro (hm | ⟨j, hj, rfl, hmem⟩)
        · exact Or.inl (Or.inl hm)
        · cases j with
          | zero => exact Or.inl (Or.inr (by omega))
          | succ j' =>
            refine Or.inr ⟨j', Nat.lt_of_succ_lt_succ hj, by omega, ?_⟩
            simpa using hmem
    · simp only [if_neg hffs]
      constructor
      · rintro (hm | ⟨j, hj, rfl, hmem⟩)
        · exact Or.inl hm
        · exact Or.inr ⟨j + 1, Nat.succ_lt_succ hj, by omega, by simpa using hmem⟩
      · rintro (hm | ⟨j, hj, rfl, hmem⟩)
        · exact Or.inl hm
        · cases j with
          | zero => exact absurd (by simpa using hmem) hffs
          | succ j' =>
            refine Or.inr ⟨j', Nat.lt_of_succ_lt_succ hj, by omega, ?_⟩
            simpa using hmem

/-- Claim C6: the reverse index has one line per file ID in file-ID order,
each file's n-gram ID list is sorted ascending, and for every file ID `f`
and n-gram ID `g`, `g` appears on file `f`'s line of the reverse index if
and only if `f` appears on n-gram `g`'s line of the n-gram-to-files
index. -/
theorem ngram_files_reverse_index (index : List (List Nat)) (F f g : Nat)
    (hf : f < F) :
    (ngramFilesCache index F).length = F ∧
    (ngramFilesCache index F).get? f =
      some (f, (fileToNgrams index f).insertionSort (· ≤ ·)) ∧
    ((fileToNgrams index f).insertionSort (· ≤ ·)).Sorted (· ≤ ·) ∧
    (g ∈ (fileToNgrams index f).insertionSort (· ≤ ·) ↔
      ∃ hg : g < index.length, f ∈ index.get ⟨g, hg⟩) := by
  refine ⟨by simp [ngramFilesCache], ?_, List.sorted_insertionSort _ _, ?_⟩
  · rw [ngramFilesCache, List.get?_map, List.get?_range hf, Option.map_some']
  · rw [(List.perm_insertionSort _ _).mem_iff, fileToNgrams,
      mem_buildRevAux index 0 (fun _ => []) f g]
    simp only [List.not_mem_nil, false_or, Nat.zero_add]
    constructor
    · rintro ⟨j, hj, rfl, hmem⟩; exact ⟨hj, hmem⟩
    · rintro ⟨hg, hmem⟩; exact ⟨g, hg, rfl, hmem⟩

/-- Witness for `ngram_files_reverse_index` at a concrete two-file,
two-n-gram index. -/
theorem ngram_files_reverse_index_witness :
    (1 < 2) ∧
    ((ngramFilesCache [[0], [0, 1]] 2).length = 2 ∧
     (ngramFilesCache [[0], [0, 1]] 2).get? 1 =
       some (1, (fileToNgrams [[0], [0, 1]] 1).insertionSort (· ≤ ·)) ∧
     ((fileToNgrams [[0], [0, 1]] 1).insertionSort (· ≤ ·)).Sorted (· ≤ ·) ∧
     (1 ∈ (fileToNgrams [[0], [0, 1]] 1).insertionSort (· ≤ ·) ↔
       ∃ hg : 1 < ([[0], [0, 1]] : List (List Nat)).length,
         1 ∈ ([[0], [0, 1]] : List (List Nat)).get ⟨1, hg⟩)) :=
  ⟨by decide, ngram_files_reverse_index [[0], [0, 1]] 2 1 1 (by decide)⟩

/-! ## N-gram index builder (`BuildNgramCache`, pkg/cache.go)

For each order `n` the builder scans every file in file-ID order, slides a
width-`n` window over the file's word-ID sequence, assigns a fresh n-gram
ID the first time a key is seen, and accumulates the current file ID into
that n-gram's file set.  It persists `uniq%dgram.txt` (the key of each
n-gram ID, in ID order) and `%dgramindex.txt` (line `g` is
`g,[f1,...,fk]` with the file IDs sorted ascending). -/

/-- Record one window occurrence: append the file ID to the (set-valued)
file list of the key's entry, creating the entry if the key is new. -/
def insertWindow (st : List (List Nat × List Nat)) (fileIdx : Nat)
    (key : List Nat) : List (List Nat × List Nat) :=
  if st.any (fun p => p.1 = key) then
    st.map (fun p =>
      if p.1 = key then (p.1, if fileIdx ∈ p.2 then p.2 else p.2 ++ [fileIdx]) else p)
  else st ++ [(key, [fileIdx])]

/-- The order-`n` n-gram map after the full scan, in ID-assignment order:
position = n-gram ID, entry = (word-ID key, file IDs in insertion order). -/
def buildNgramPairs (corpus : List (String × String)) (n : Nat) :
    List (List Nat × List Nat) :=
  (corpus.enum).foldl
    (fun st fp =>
      (windows n (wordIdSeq (sortedWords corpus) fp.2.2)).foldl
        (fun st k => insertWindow st fp.1 k) st)
    []

/-- `uniq%dgram.txt` content: the word-ID key of each n-gram ID. -/
def ngramTable (corpus : List (String × String)) (n : Nat) : List (List Nat) :=
  (buildNgramPairs corpus n).map Prod.fst

/-- `%dgramindex.txt` content: each n-gram ID's sorted file-ID list. -/
def ngramIndex (corpus : List (String × String)) (n : Nat) : List (List Nat) :=
  (buildNgramPairs corpus n).map (fun p => p.2.insertionSort (· ≤ ·))

/-! ## Persisted line formats and the report loader
(`loadNgramsWithFiles`, pkg/web/server.go)

The loader reads `uniq%dgram.txt` and `%dgramindex.txt` line pairs.  It
splits the index line on every `","` and runs `strconv.Atoi` on each piece
ignoring the error (Go `Atoi` yields 0 on any malformed input) — it never
strips the `g,[...]` wrapper the writer produced, even though its own
format comment expects a bare `f1,f2,...` list.  This mangled parse is
reproduced faithfully below. -/

/-- One `uniq%dgram.txt` line: `id1|id2|...`. -/
def serializeNgramLine (ids : List Nat) : String :=
  String.intercalate "|" (ids.map toString)

/-- One `%dgramindex.txt` line: `gid,[f1,...,fk]`. -/
def serializeIndexLine (gid : Nat) (fs : List Nat) : String :=
  toString gid ++ ",[" ++ String.intercalate "," (fs.map toString) ++ "]"

/-- `uniq%dgram.txt` as a line list. -/
def ngramLines (corpus : List (String × String)) (n : Nat) : List String :=
  (ngramTable corpus n).map serializeNgramLine

/-- `%dgramindex.txt` as a line list. -/
def indexLines (corpus : List (String × String)) (n : Nat) : List String :=
  ((ngramIndex corpus n).enum).map (fun p => serializeIndexLine p.1 p.2)

/-- An n-gram as the report generators hold it (`NgramWithFiles` /
`ngramEntry` in server.go): `files = none` models the nil map of the
frequency-only fallback. -/
structure NgramEntry where
  words : List String
  n : Nat
  files : Option (List Nat)
  count : Nat
deriving DecidableEq

/-- Go `strings.Split` with a single-character separator (every separator
used in this code — `"|"`, `","`, `" "` — is one character): cut at every
occurrence, keeping empty pieces.  `acc` holds the current piece
reversed. -/
def splitCharAux (sep : Char) : List Char → List Char → List String
  | [], acc => [⟨acc.reverse⟩]
  | c :: rest, acc =>
    if c = sep then ⟨acc.reverse⟩ :: splitCharAux sep rest []
    else splitCharAux sep rest (c :: acc)

def splitChar (sep : Char) (s : String) : List String :=
  splitCharAux sep s.data []

/-- Go `strconv.Atoi` with its error ignored: the parsed value on an
all-digit string, 0 on malformed input.  (The strings parsed here never
carry a sign, and are far below the `int` overflow range.) -/
def goAtoi (s : String) : Nat :=
  if s.data ≠ [] ∧ s.data.all (fun c => '0' ≤ c && c ≤ '9') then
    s.data.foldl (fun n c => n * 10 + (c.toNat - '0'.toNat)) 0
  else 0

/-- The loader's file-ID parse of an index line: split the whole line on
`","`, `Atoi` every nonempty piece, collect into a set (modelled as a
first-occurrence-ordered duplicate-free list). -/
def parseFilesLine (line : String) : List Nat :=
  ((splitChar ',' line).filter (fun s => s ≠ "")).foldl
    (fun acc s => if goAtoi s ∈ acc then acc else acc ++ [goAtoi s]) []

/-- `loadNgramsWithFiles`: read line pairs (stopping at the shorter file
and at `limit` lines when `limit > 0`), decode the word-ID tuple through
the word table (IDs missing from the table are dropped), and attach the
parsed file set; `count` is the size of that set. -/
def loadNgramsWithFiles (wordTable : List String) (n : Nat)
    (nglines idxlines : List String) (limit : Nat) : List NgramEntry :=
  let pairs := nglines.zip idxlines
  let pairs := if limit = 0 then pairs else pairs.take limit
  pairs.map (fun p =>
    let indices := (splitChar '|' p.1).map goAtoi
    let files := parseFilesLine p.2
    { words := indices.filterMap (fun i => wordTable.get? i)
      n := n
      files := some files
      count := files.length })

/-! ## The numeric-noise filter (`isNumericOnly`, pkg/web/server.go) -/

/-- A character Go's `isNumericOnly` treats as numeric-like. -/
def isPureNumChar (c : Char) : Bool :=
  ('0' ≤ c && c ≤ '9') || c = 'e' || c = '.' || c = '-' || c = '+'

def isDigitChar (c : Char) : Bool :=
  '0' ≤ c && c ≤ '9'

/-- One word counts toward the numeric ratio when it is nonempty and
either all its characters are numeric-like or it starts with a digit. -/
def numericish (w : String) : Bool :=
  match w.data with
  | [] => false
  | c :: _ => w.data.all isPureNumChar || isDigitChar c

/-- `isNumericOnly`: empty word lists are numeric; otherwise the word list
is numeric when more than 60% of its words are numeric-like.  Go compares
`float64(nc)/float64(len) > 0.6`; for any word list shorter than 2^50 that
IEEE comparison coincides with the exact rational comparison
`5*nc > 3*len` (the nearest-double of 0.6 sits below 3/5, and no ratio of
such small integers falls between them), which is used here. -/
def isNumericOnly (words : List String) : Bool :=
  if words.length = 0 then true
  else decide (3 * words.length < 5 * (words.filter numericish).length)

/-! ## Shared chain-search plumbing (pkg/web/server.go)

All three strategies load n-grams into two lookup maps: `endsWith` keyed
by the space-joined last two words and `startsWith` keyed by the
space-joined first two words.  Go map iteration order is unspecified; the
maps are modelled as association lists in key-insertion order. -/

/-- Go `strings.Join(ws, " ")`. -/
def joinSpace : List String → String
  | [] => ""
  | [w] => w
  | w :: rest => w ++ " " ++ joinSpace rest

def phrase (e : NgramEntry) : String :=
  joinSpace e.words

/-- `strings.Join(words[len-2:], " ")`. -/
def endKey (e : NgramEntry) : String :=
  joinSpace (e.words.drop (e.words.length - 2))

/-- `strings.Join(words[:2], " ")`. -/
def startKey (e : NgramEntry) : String :=
  joinSpace (e.words.take 2)

abbrev EntryMap := List (String × List NgramEntry)

/-- `m[k] = append(m[k], e)`. -/
def mapAdd (m : EntryMap) (k : String) (e : NgramEntry) : EntryMap :=
  if m.any (fun p => p.1 = k) then
    m.map (fun p => if p.1 = k then (p.1, p.2 ++ [e]) else p)
  else m ++ [(k, [e])]

/-- `list, ok := m[k]`: the entry list, `[]` when the key is absent. -/
def mapGet (m : EntryMap) (k : String) : List NgramEntry :=
  (((m.find? (fun p => p.1 = k)).map Prod.snd).getD [])

/-- The shared loading loop: drop n-grams with fewer than 2 decoded words
and (when requested) numeric-noise n-grams, then insert each survivor into
both boundary maps.  Returns `(endsWith, startsWith)`. -/
def buildMaps (skipNumeric : Bool) (entries : List NgramEntry) :
    EntryMap × EntryMap :=
  entries.foldl
    (fun ms e =>
      if e.words.length < 2 then ms
      else if skipNumeric && isNumericOnly e.words then ms
      else (mapAdd ms.1 (endKey e) e, mapAdd ms.2 (startKey e) e))
    ([], [])

/-- The capped shared-file name listing: emit the name of each file ID
that is in range, and once `cap` entries of the shared list have been
walked with more remaining, emit the `more` tag and stop. -/
def fileNamesCapped (fileNames : List String) (more : String) (cap : Nat) :
    Nat → List Nat → List String
  | _, [] => []
  | i, fIdx :: rest =>
    if cap ≤ i then [more]
    else
      match fileNames.get? fIdx with
      | some nm => nm :: fileNamesCapped fileNames more cap (i + 1) rest
      | none => fileNamesCapped fileNames more cap (i + 1) rest

/-! ## Strategy 1: pairwise 2-hop search (`generateRecurringTextReport`) -/

structure ChainSegment where
  phrase : String
  n : Nat
  count : Nat
  startIdx : Nat
  endIdx : Nat
deriving DecidableEq

structure RecurringChain where
  segments : List ChainSegment
  fullText : String
  overlap : String
  fileCount : Nat
  files : List String
  totalLength : Nat
deriving DecidableEq

/-- The shared-file intersection of two loaded n-grams: Go leaves it nil
unless both file maps are non-nil. -/
def intersectFiles (a b : NgramEntry) : List Nat :=
  match a.files, b.files with
  | some fs, some ts => fs.filter (fun x => x ∈ ts)
  | _, _ => []

/-- Narrow an already-computed shared set by a third n-gram's files; nil
file data yields the empty intersection. -/
def filterShared (sh : List Nat) (t : NgramEntry) : List Nat :=
  match t.files with
  | some tf => sh.filter (fun x => x ∈ tf)
  | none => []

/-- The body of the innermost pairwise loop.  State: the chains collected
so far and the `seen` dedup keys.  The 500-chain cap makes every later
iteration a no-op, which models Go's cascaded `break`s. -/
def tryPair (fileNames : List String) (minFiles0 : Nat)
    (st : List RecurringChain × List String) (f t : NgramEntry) :
    List RecurringChain × List String :=
  if 500 ≤ st.1.length then st
  else
    let fromPhrase := phrase f
    let toPhrase := phrase t
    if fromPhrase = toPhrase then st
    else
      let sharedFiles := intersectFiles f t
      if sharedFiles.length = 0 ∧ f.files.isSome then st
      else
        let fileCount :=
          if f.files.isNone then min f.count t.count else sharedFiles.length
        if fileCount < (if minFiles0 < 2 then 2 else minFiles0) then st
        else
          let chainKey := fromPhrase ++ " | " ++ toPhrase
          if chainKey ∈ st.2 then st
          else
            let fullText := fromPhrase ++ " " ++ joinSpace (t.words.drop 2)
            let fullWords := splitChar ' ' fullText
            let chain : RecurringChain :=
              { segments :=
                  [⟨fromPhrase, f.n, f.count, 0, f.n - 1⟩,
                   ⟨toPhrase, t.n, t.count, f.n - 2, fullWords.length - 1⟩]
                fullText := fullText
                overlap := joinSpace (f.words.drop (f.words.length - 2))
                fileCount := fileCount
                files := fileNamesCapped fileNames
                  ("... and " ++ toString (sharedFiles.length - 20) ++ " more")
                  20 0 sharedFiles
                totalLength := fullWords.length }
            (st.1 ++ [chain], st.2 ++ [chainKey])

/-- The nested pairwise loops over the boundary maps. -/
def recurringSearch (fileNames : List String) (minFiles0 : Nat)
    (ew sw : EntryMap) : List RecurringChain :=
  (ew.foldl
    (fun st p =>
      p.2.foldl
        (fun st f =>
          (mapGet sw p.1).foldl (fun st t => tryPair fileNames minFiles0 st f t) st)
        st)
    ([], [])).1

/-- The `sort.Slice` ranking of the pairwise report: file count
descending, then merged length descending. -/
def recChainOrd (a b : RecurringChain) : Prop :=
  b.fileCount < a.fileCount ∨ (b.fileCount = a.fileCount ∧ b.totalLength ≤ a.totalLength)

instance : DecidableRel recChainOrd := fun a b => by
  unfold recChainOrd; infer_instance

instance : IsTotal RecurringChain recChainOrd :=
  ⟨fun a b => by
    unfold recChainOrd
    rcases Nat.lt_trichotomy a.fileCount b.fileCount with h | h | h
    · exact Or.inr (Or.inl h)
    · rcases Nat.le_total b.totalLength a.totalLength with h' | h'
      · exact Or.inl (Or.inr ⟨h.symm, h'⟩)
      · exact Or.inr (Or.inr ⟨h, h'⟩)
    · exact Or.inl (Or.inl h)⟩

instance : IsTrans RecurringChain recChainOrd :=
  ⟨fun a b c hab hbc => by
    unfold recChainOrd at *
    rcases hab with h1 | ⟨h1, h1'⟩ <;> rcases hbc with h2 | ⟨h2, h2'⟩
    · exact Or.inl (Nat.lt_trans h2 h1)
    · exact Or.inl (h2 ▸ h1)
    · exact Or.inl (h1 ▸ h2)
    · exact Or.inr ⟨h2.trans h1, h2'.trans h1'⟩⟩

/-- `generateRecurringTextReport` after loading: filter and index the
loaded n-grams, search, rank, and keep the top 100. -/
def generateRecurringText (fileNames : List String) (minFiles0 : Nat)
    (skipNumeric : Bool) (entries : List NgramEntry) : List RecurringChain :=
  let ms := buildMaps skipNumeric entries
  ((recurringSearch fileNames minFiles0 ms.1 ms.2).insertionSort recChainOrd).take 100

/-! ## Strategy 2: 3-hop search (`generateLinkedNgramsReport`) -/

structure ChainNode where
  phrase : String
  n : Nat
  count : Nat
deriving DecidableEq

structure NgramChainResult where
  chain : List ChainNode
  fullText : String
  chainLength : Nat
  fileCount : Nat
  files : List String
deriving DecidableEq

/-- Innermost 3-hop loop body: try to close the chain `f → m → t`.
`sharedAB` is the file intersection of `f` and `m` computed one loop out.
Note that when `t` carries no file data the minimum-files check is never
re-applied to the estimated count — exactly as in the source. -/
def tryTriple (fileNames : List String) (minFiles : Nat)
    (st : List NgramChainResult × List String) (f m t : NgramEntry)
    (sharedAB : List Nat) : List NgramChainResult × List String :=
  if 300 ≤ st.1.length then st
  else
    let fp := phrase f
    let mp := phrase m
    let tp := phrase t
    if tp = mp ∨ tp = fp then st
    else
      let sharedABC := filterShared sharedAB t
      if sharedABC.length < minFiles ∧ t.files.isSome then st
      else
        let fileCount :=
          if t.files.isNone then min (min f.count m.count) t.count
          else sharedABC.length
        let chainKey := fp ++ "|" ++ mp ++ "|" ++ tp
        if chainKey ∈ st.2 then st
        else
          let fullText :=
            fp ++ " " ++ joinSpace (m.words.drop 2) ++ " " ++ joinSpace (t.words.drop 2)
          let res : NgramChainResult :=
            { chain := [⟨fp, f.n, f.count⟩, ⟨mp, m.n, m.count⟩, ⟨tp, t.n, t.count⟩]
              fullText := fullText
              chainLength := 3
              fileCount := fileCount
              files := fileNamesCapped fileNames
                ("...+" ++ toString (sharedABC.length - 10) ++ " more") 10 0 sharedABC }
          (st.1 ++ [res], st.2 ++ [chainKey])

/-- Middle 3-hop loop body: screen the `f → m` link, then try every
continuation of `m`. -/
def tryMid (fileNames : List String) (minFiles : Nat) (sw : EntryMap)
    (st : List NgramChainResult × List String) (f m : NgramEntry) :
    List NgramChainResult × List String :=
  if 300 ≤ st.1.length then st
  else
    let fp := phrase f
    let mp := phrase m
    if fp = mp then st
    else
      let sharedAB := intersectFiles f m
      if sharedAB.length < minFiles ∧ f.files.isSome then st
      else
        (mapGet sw (endKey m)).foldl
          (fun st t => tryTriple fileNames minFiles st f m t sharedAB) st

/-- The nested 3-hop loops over the boundary maps. -/
def linkedSearch (fileNames : List String) (minFiles : Nat)
    (ew sw : EntryMap) : List NgramChainResult :=
  (ew.foldl
    (fun st p =>
      p.2.foldl
        (fun st f =>
          (mapGet sw p.1).foldl (fun st m => tryMid fileNames minFiles sw st f m) st)
        st)
    ([], [])).1

/-- The 3-hop report ranking: file count descending, then chain length
descending. -/
def linkedOrd (a b : NgramChainResult) : Prop :=
  b.fileCount < a.fileCount ∨ (b.fileCount = a.fileCount ∧ b.chainLength ≤ a.chainLength)

instance : DecidableRel linkedOrd := fun a b => by
  unfold linkedOrd; infer_instance

instance : IsTotal NgramChainResult linkedOrd :=
  ⟨fun a b => by
    unfold linkedOrd
    rcases Nat.lt_trichotomy a.fileCount b.fileCount with h | h | h
    · exact Or.inr (Or.inl h)
    · rcases Nat.le_total b.chainLength a.chainLength with h' | h'
      · exact Or.inl (Or.inr ⟨h.symm, h'⟩)
      · exact Or.inr (Or.inr ⟨h, h'⟩)
    · exact Or.inl (Or.inl h)⟩

instance : IsTrans NgramChainResult linkedOrd :=
  ⟨fun a b c hab hbc => by
    unfold linkedOrd at *
    rcases hab with h1 | ⟨h1, h1'⟩ <;> rcases hbc with h2 | ⟨h2, h2'⟩
    · exact Or.inl (Nat.lt_trans h2 h1)
    · exact Or.inl (h2 ▸ h1)
    · exact Or.inl (h1 ▸ h2)
    · exact Or.inr ⟨h2.trans h1, h2'.trans h1'⟩⟩

/-- `generateLinkedNgramsReport` after loading (the requested minimum file
count is floored at 2 before the search, as in the source). -/
def generateLinkedNgrams (fileNames : List String) (minFiles0 : Nat)
    (skipNumeric : Bool) (entries : List NgramEntry) : List NgramChainResult :=
  let minFiles := if minFiles0 < 2 then 2 else minFiles0
  let ms := buildMaps skipNumeric entries
  ((linkedSearch fileNames minFiles ms.1 ms.2).insertionSort linkedOrd).take 100

/-! ## Strategy 3: greedy best chains (`generateBestChainsReport`) -/

structure BestChain where
  chain : List ChainNode
  fullText : String
  wordCount : Nat
  fileCount : Nat
  score : Nat
  files : List String
deriving DecidableEq

/-- Pick the highest-scoring continuation of `current` among the n-grams
starting at its boundary: score = (overlap with the running shared-file
set) × 1000 + occurrence count, first maximum wins, self excluded. -/
def selectBest (sw : EntryMap) (current : NgramEntry) (shared : List Nat) :
    Option NgramEntry :=
  ((mapGet sw (endKey current)).foldl
    (fun best next =>
      if phrase next = phrase current then best
      else
        let s :=
          if shared.length ≠ 0 ∧ next.files.isSome then
            (shared.filter (fun x => x ∈ next.files.getD [])).length
          else 0
        let score := s * 1000 + next.count
        match best with
        | none => some (next, score)
        | some (b, bs) => if bs < score then some (next, score) else some (b, bs))
    none).map Prod.fst

/-- The greedy forward extension, at most 10 hops.  The running shared set
is narrowed to the intersection when it is nonempty, re-seeded from the
next link's files when it is empty, and left alone when the link has no
file data. -/
def extendChain : Nat → EntryMap → List NgramEntry → List Nat → NgramEntry →
    List NgramEntry × List Nat
  | 0, _, chain, shared, _ => (chain, shared)
  | d + 1, sw, chain, shared, current =>
    match selectBest sw current shared with
    | none => (chain, shared)
    | some next =>
      let shared' :=
        if shared.length ≠ 0 ∧ next.files.isSome then
          shared.filter (fun x => x ∈ next.files.getD [])
        else if next.files.isSome then next.files.getD []
        else shared
      extendChain d sw (chain ++ [next]) shared' next

/-- The merged text of a chain: the first segment in full, then each later
segment's words after its 2-word overlap. -/
def bestFullText (chain : List NgramEntry) : String :=
  match chain with
  | [] => ""
  | c0 :: rest =>
    rest.foldl (fun acc e => acc ++ " " ++ joinSpace (e.words.drop 2)) (joinSpace c0.words)

/-- Grow the longest chain from one start n-gram and record it unless its
merged text was already seen. -/
def tryStart (sw : EntryMap) (fileNames : List String)
    (st : List BestChain × List String) (start : NgramEntry) :
    List BestChain × List String :=
  let res := extendChain 10 sw [start] (start.files.getD []) start
  if res.1.length < 2 then st
  else
    let fullText := bestFullText res.1
    if fullText ∈ st.2 then st
    else
      let wordCount := (splitChar ' ' fullText).length
      let fileCount := res.2.length
      let bc : BestChain :=
        { chain := res.1.map (fun c => (⟨phrase c, c.n, c.count⟩ : ChainNode))
          fullText := fullText
          wordCount := wordCount
          fileCount := fileCount
          score := wordCount * fileCount
          files := fileNamesCapped fileNames
            ("...+" ++ toString (fileCount - 10) ++ " more") 10 0 res.2 }
      (st.1 ++ [bc], st.2 ++ [fullText])

/-- Every loaded n-gram (walked through the `endsWith` map) is tried as a
chain head. -/
def bestSearch (sw ew : EntryMap) (fileNames : List String) : List BestChain :=
  (ew.foldl
    (fun st p => p.2.foldl (fun st start => tryStart sw fileNames st start) st)
    ([], [])).1

/-- The best-chains ranking: score descending. -/
def bestOrd (a b : BestChain) : Prop := b.score ≤ a.score

instance : DecidableRel bestOrd := fun a b =>
  inferInstanceAs (Decidable (b.score ≤ a.score))

instance : IsTotal BestChain bestOrd := ⟨fun a b => Nat.le_total b.score a.score⟩

instance : IsTrans BestChain bestOrd :=
  ⟨fun _ _ _ hab hbc => Nat.le_trans hbc hab⟩

/-- `generateBestChainsReport` after loading. -/
def generateBestChains (fileNames : List String) (skipNumeric : Bool)
    (entries : List NgramEntry) : List BestChain :=
  let ms := buildMaps skipNumeric entries
  ((bestSearch ms.2 ms.1 fileNames).insertionSort bestOrd).take 100

/-! ## Invariant machinery for the searches -/

theorem foldl_preserve {α β : Type} {l : List α} {f : β → α → β} {P : β → Prop}
    (h : ∀ st a, a ∈ l → P st → P (f st a)) :
    ∀ st, P st → P (l.foldl f st) := by
  induction l with
  | nil => intro st hst; exact hst
  | cons a t ih =>
    intro st hst
    exact ih (fun st' b hb => h st' b (List.mem_cons_of_mem a hb))
      (f st a) (h st a (List.mem_cons_self a t) hst)

/-- Every entry under every key of the map satisfies `Q`. -/
def MapInv (Q : String → NgramEntry → Prop) (m : EntryMap) : Prop :=
  ∀ p ∈ m, ∀ e ∈ p.2, Q p.1 e

theorem mapInv_add {Q : String → NgramEntry → Prop} {m : EntryMap}
    {k : String} {e : NgramEntry} (h : MapInv Q m) (he : Q k e) :
    MapInv Q (mapAdd m k e) := by
  intro p hp e' he'
  unfold mapAdd at hp
  by_cases hany : m.any (fun p => decide (p.1 = k))
  · rw [if_pos hany] at hp
    obtain ⟨q, hq, hqp⟩ := List.mem_map.mp hp
    by_cases hqk : q.1 = k
    · rw [if_pos hqk] at hqp
      subst hqp
      simp only [List.mem_append, List.mem_singleton] at he'
      rcases he' with he' | he'
      · exact h q hq e' he'
      · exact hqk ▸ (he' ▸ he)
    · rw [if_neg hqk] at hqp
      subst hqp
      exact h q hq e' he'
  · rw [if_neg hany] at hp
    rw [List.mem_append, List.mem_singleton] at hp
    rcases hp with hp | hp
    · exact h p hp e' he'
    · subst hp
      simp only [List.mem_singleton] at he'
      exact he' ▸ he

theorem mapInv_get {Q : String → NgramEntry → Prop} {m : EntryMap}
    (h : MapInv Q m) (k : String) : ∀ e ∈ mapGet m k, Q k e := by
  intro e he
  unfold mapGet at he
  cases hfind : m.find? (fun p => decide (p.1 = k)) with
  | none => rw [hfind] at he; simp at he
  | some p =>
    rw [hfind] at he
    simp only [Option.map_some', Option.getD_some] at he
    have hpk : p.1 = k := by
      have := List.find?_some hfind
      simpa using this
    exact hpk ▸ h p (List.mem_of_find?_eq_some hfind) e he

/-- The state of `buildMaps` always satisfies the per-map invariants:
entries come from the input list, have at least 2 decoded words, and sit
under their own boundary key. -/
theorem buildMaps_inv (skip : Bool) (entries : List NgramEntry) :
    MapInv (fun k e => e ∈ entries ∧ 2 ≤ e.words.length ∧ endKey e = k)
      (buildMaps skip entries).1 ∧
    MapInv (fun k e => e ∈ entries ∧ 2 ≤ e.words.length ∧ startKey e = k)
      (buildMaps skip entries).2 := by
  unfold buildMaps
  refine foldl_preserve (P := fun ms =>
    MapInv (fun k e => e ∈ entries ∧ 2 ≤ e.words.length ∧ endKey e = k) ms.1 ∧
    MapInv (fun k e => e ∈ entries ∧ 2 ≤ e.words.length ∧ startKey e = k) ms.2)
    ?_ ([], []) ⟨fun p hp => absurd hp (List.not_mem_nil p),
                 fun p hp => absurd hp (List.not_mem_nil p)⟩
  intro st e he h12
  obtain ⟨h1, h2⟩ := h12
  split
  next => exact ⟨h1, h2⟩
  next hlen =>
    split
    next => exact ⟨h1, h2⟩
    next =>
      exact ⟨mapInv_add h1 ⟨he, Nat.le_of_not_lt hlen, rfl⟩,
             mapInv_add h2 ⟨he, Nat.le_of_not_lt hlen, rfl⟩⟩

/-- Branch analysis of `tryPair`: it either leaves the chain list alone or
appends exactly one chain, whose segments and file count are determined by
the two linked n-grams and whose construction passed every guard. -/
theorem tryPair_spec (fileNames : List String) (minFiles0 : Nat)
    (st : List RecurringChain × List String) (f t : NgramEntry) :
    (tryPair fileNames minFiles0 st f t).1 = st.1 ∨
    ∃ ch : RecurringChain,
      (tryPair fileNames minFiles0 st f t).1 = st.1 ++ [ch] ∧
      ch.segments.map (fun s => (s.phrase, s.count)) =
        [(phrase f, f.count), (phrase t, t.count)] ∧
      ¬((intersectFiles f t).length = 0 ∧ f.files.isSome) ∧
      ch.fileCount =
        (if f.files.isNone then min f.count t.count else (intersectFiles f t).length) ∧
      (if minFiles0 < 2 then 2 else minFiles0) ≤ ch.fileCount := by
  simp only [tryPair]
  split
  next => left; rfl
  next =>
    split
    next => left; rfl
    next =>
      split
      next => left; rfl
      next hguard =>
        split <;> rename_i hnone <;> split <;>
          first
          | (split
             next => left; rfl
             next hmin =>
               split
               next => left; rfl
               next =>
                 right
                 exact ⟨_, rfl, rfl, hguard, by simp [hnone], Nat.le_of_not_lt hmin⟩)

/-- Lift a chain property through the nested pairwise loops: if every
`tryPair` call on boundary-compatible map entries preserves it, it holds
for every chain the search returns. -/
theorem recurringSearch_prop (fileNames : List String) (minFiles0 : Nat)
    (ew sw : EntryMap) (Q : RecurringChain → Prop)
    (hQ : ∀ st p, p ∈ ew → ∀ f, f ∈ p.2 → ∀ t, t ∈ mapGet sw p.1 →
      (∀ c ∈ st.1, Q c) → ∀ c ∈ (tryPair fileNames minFiles0 st f t).1, Q c) :
    ∀ c ∈ recurringSearch fileNames minFiles0 ew sw, Q c := by
  unfold recurringSearch
  have main : ∀ st : List RecurringChain × List String, (∀ c ∈ st.1, Q c) →
      ∀ c ∈ (ew.foldl (fun st p =>
        p.2.foldl (fun st f =>
          (mapGet sw p.1).foldl (fun st t => tryPair fileNames minFiles0 st f t) st) st)
        st).1, Q c := by
    intro st hst
    exact foldl_preserve (P := fun st => ∀ c ∈ st.1, Q c)
      (fun st p hp h =>
        foldl_preserve (P := fun st => ∀ c ∈ st.1, Q c)
          (fun st' f hf h' =>
            foldl_preserve (P := fun st => ∀ c ∈ st.1, Q c)
              (fun st'' t ht h'' => hQ st'' p hp f hf t ht h'') st' h') st h) st hst
  exact main ([], []) (fun c hc => absurd hc (List.not_mem_nil c))

/-- Membership in a generated report implies membership in the raw search
result (ranking and truncation only rearrange and drop chains). -/
theorem mem_generateRecurringText {fileNames : List String} {minFiles0 : Nat}
    {skip : Bool} {entries : List NgramEntry} {c : RecurringChain}
    (hc : c ∈ generateRecurringText fileNames minFiles0 skip entries) :
    c ∈ recurringSearch fileNames minFiles0
        (buildMaps skip entries).1 (buildMaps skip entries).2 := by
  unfold generateRecurringText at hc
  have := List.take_subset 100 _ hc
  exact (List.perm_insertionSort recChainOrd _).subset this

/-- Branch analysis of `tryTriple`. -/
theorem tryTriple_spec (fileNames : List String) (minFiles : Nat)
    (st : List NgramChainResult × List String) (f m t : NgramEntry)
    (sharedAB : List Nat) :
    (tryTriple fileNames minFiles st f m t sharedAB).1 = st.1 ∨
    ∃ ch : NgramChainResult,
      (tryTriple fileNames minFiles st f m t sharedAB).1 = st.1 ++ [ch] ∧
      ch.chain.map (fun s => (s.phrase, s.count)) =
        [(phrase f, f.count), (phrase m, m.count), (phrase t, t.count)] ∧
      ¬((filterShared sharedAB t).length < minFiles ∧ t.files.isSome) ∧
      ch.fileCount =
        (if t.files.isNone then min (min f.count m.count) t.count
         else (filterShared sharedAB t).length) := by
  simp only [tryTriple]
  split
  next => left; rfl
  next =>
    split
    next => left; rfl
    next =>
      split
      next => left; rfl
      next hguard =>
        split
        next => left; rfl
        next =>
          right
          exact ⟨_, rfl, rfl, hguard, rfl⟩

/-- `tryMid` preserves any state property that every guarded `tryTriple`
call preserves. -/
theorem tryMid_prop (fileNames : List String) (minFiles : Nat) (sw : EntryMap)
    (st : List NgramChainResult × List String) (f m : NgramEntry)
    (P : List NgramChainResult × List String → Prop) (hst : P st)
    (hstep : ∀ st' t, t ∈ mapGet sw (endKey m) →
      ¬((intersectFiles f m).length < minFiles ∧ f.files.isSome) →
      P st' → P (tryTriple fileNames minFiles st' f m t (intersectFiles f m))) :
    P (tryMid fileNames minFiles sw st f m) := by
  simp only [tryMid]
  split
  next => exact hst
  next =>
    split
    next => exact hst
    next =>
      split
      next => exact hst
      next hguard =>
        exact foldl_preserve (P := P)
          (fun st' t ht h => hstep st' t ht hguard h) st hst

/-- Lift a chain property through the nested 3-hop loops. -/
theorem linkedSearch_prop (fileNames : List String) (minFiles : Nat)
    (ew sw : EntryMap) (Q : NgramChainResult → Prop)
    (hQ : ∀ st p, p ∈ ew → ∀ f, f ∈ p.2 → ∀ m, m ∈ mapGet sw p.1 →
      ∀ t, t ∈ mapGet sw (endKey m) →
      ¬((intersectFiles f m).length < minFiles ∧ f.files.isSome) →
      (∀ c ∈ st.1, Q c) →
      ∀ c ∈ (tryTriple fileNames minFiles st f m t (intersectFiles f m)).1, Q c) :
    ∀ c ∈ linkedSearch fileNames minFiles ew sw, Q c := by
  unfold linkedSearch
  have main : ∀ st : List NgramChainResult × List String, (∀ c ∈ st.1, Q c) →
      ∀ c ∈ (ew.foldl (fun st p =>
        p.2.foldl (fun st f =>
          (mapGet sw p.1).foldl (fun st m => tryMid fileNames minFiles sw st f m) st) st)
        st).1, Q c := by
    intro st hst
    refine foldl_preserve (P := fun st => ∀ c ∈ st.1, Q c) ?_ st hst
    intro st' p hp h'
    refine foldl_preserve (P := fun st => ∀ c ∈ st.1, Q c) ?_ st' h'
    intro st'' f hf h''
    refine foldl_preserve (P := fun st => ∀ c ∈ st.1, Q c) ?_ st'' h''
    intro st3 m hm h3
    exact tryMid_prop fileNames minFiles sw st3 f m (fun st => ∀ c ∈ st.1, Q c) h3
      (fun st4 t ht hguard h4 => hQ st4 p hp f hf m hm t ht hguard h4)
  exact main ([], []) (fun c hc => absurd hc (List.not_mem_nil c))

theorem mem_generateLinkedNgrams {fileNames : List String} {minFiles0 : Nat}
    {skip : Bool} {entries : List NgramEntry} {c : NgramChainResult}
    (hc : c ∈ generateLinkedNgrams fileNames minFiles0 skip entries) :
    c ∈ linkedSearch fileNames (if minFiles0 < 2 then 2 else minFiles0)
        (buildMaps skip entries).1 (buildMaps skip entries).2 := by
  unfold generateLinkedNgrams at hc
  have := List.take_subset 100 _ hc
  exact (List.perm_insertionSort linkedOrd _).subset this

theorem mem_generateBestChains {fileNames : List String} {skip : Bool}
    {entries : List NgramEntry} {c : BestChain}
    (hc : c ∈ generateBestChains fileNames skip entries) :
    c ∈ bestSearch (buildMaps skip entries).2 (buildMaps skip entries).1 fileNames := by
  unfold generateBestChains at hc
  have := List.take_subset 100 _ hc
  exact (List.perm_insertionSort bestOrd _).subset this

/-- The greedy continuation, when it exists, is one of the n-grams
starting at the current boundary. -/
theorem selectBest_mem {sw : EntryMap} {current : NgramEntry} {shared : List Nat}
    {e : NgramEntry} (h : selectBest sw current shared = some e) :
    e ∈ mapGet sw (endKey current) := by
  unfold selectBest at h
  obtain ⟨p, hp, hpe⟩ := Option.map_eq_some'.mp h
  suffices hfold : ∀ q, (mapGet sw (endKey current)).foldl
      (fun best next =>
        if phrase next = phrase current then best
        else
          let s :=
            if shared.length ≠ 0 ∧ next.files.isSome then
              (shared.filter (fun x => x ∈ next.files.getD [])).length
            else 0
          let score := s * 1000 + next.count
          match best with
          | none => some (next, score)
          | some (b, bs) => if bs < score then some (next, score) else some (b, bs))
      none = some q → q.1 ∈ mapGet sw (endKey current) by
    exact hpe ▸ hfold p hp
  have := foldl_preserve (l := mapGet sw (endKey current))
    (P := fun acc => ∀ q, acc = some q → q.1 ∈ mapGet sw (endKey current))
    (f := fun best next =>
        if phrase next = phrase current then best
        else
          let s :=
            if shared.length ≠ 0 ∧ next.files.isSome then
              (shared.filter (fun x => x ∈ next.files.getD [])).length
            else 0
          let score := s * 1000 + next.count
          match best with
          | none => some (next, score)
          | some (b, bs) => if bs < score then some (next, score) else some (b, bs))
    ?_ none (by intro q hq; exact absurd hq (by simp))
  · exact this
  · intro acc next hnext hacc
    dsimp only
    split
    next => exact hacc
    next =>
      cases acc with
      | none => intro q hq; cases hq; exact hnext
      | some pr =>
        rcases pr with ⟨b, bs⟩
        intro q hq
        rcases ite_eq_iff.mp hq with ⟨-, h⟩ | ⟨-, h⟩ <;> cases h
        · exact hnext
        · exact hacc ⟨b, bs⟩ rfl

/-- The greedy extension preserves membership-style entry facts and keeps
the chain linked end-to-start at every hop. -/
theorem extendChain_spec (sw : EntryMap) (Q : NgramEntry → Prop)
    (hget : ∀ k e, e ∈ mapGet sw k → Q e ∧ startKey e = k) :
    ∀ (fuel : Nat) (chain : List NgramEntry) (shared : List Nat)
      (current : NgramEntry),
      chain.getLast? = some current →
      (∀ e ∈ chain, Q e) →
      chain.Chain' (fun a b => endKey a = startKey b) →
      (∀ e ∈ (extendChain fuel sw chain shared current).1, Q e) ∧
      (extendChain fuel sw chain shared current).1.Chain'
        (fun a b => endKey a = startKey b) := by
  intro fuel
  induction fuel with
  | zero =>
    intro chain shared current _ hQ hch
    exact ⟨hQ, hch⟩
  | succ d ih =>
    intro chain shared current hlast hQ hch
    rw [extendChain]
    cases hsel : selectBest sw current shared with
    | none => exact ⟨hQ, hch⟩
    | some next =>
      obtain ⟨hQn, hsk⟩ := hget _ next (selectBest_mem hsel)
      apply ih
      · simp [List.getLast?_concat]
      · intro e he
        rcases List.mem_append.mp he with he | he
        · exact hQ e he
        · rw [List.mem_singleton] at he
          exact he ▸ hQn
      · refine List.chain'_append.mpr ⟨hch, List.chain'_singleton next, ?_⟩
        intro x hx y hy
        rw [hlast] at hx
        rw [List.head?_cons] at hy
        rw [Option.mem_def, Option.some_inj] at hx hy
        subst hx
        subst hy
        exact hsk.symm

/-- Branch analysis of `tryStart`: the state is unchanged, or exactly one
best chain built from the greedy extension of `start` is appended together
with its dedup key. -/
theorem tryStart_spec (sw : EntryMap) (fileNames : List String)
    (st : List BestChain × List String) (start : NgramEntry) :
    tryStart sw fileNames st start = st ∨
    ∃ bc : BestChain,
      tryStart sw fileNames st start = (st.1 ++ [bc], st.2 ++ [bc.fullText]) ∧
      bc.fullText ∉ st.2 ∧
      2 ≤ (extendChain 10 sw [start] (start.files.getD []) start).1.length ∧
      bc.chain = (extendChain 10 sw [start] (start.files.getD []) start).1.map
        (fun c => (⟨phrase c, c.n, c.count⟩ : ChainNode)) := by
  simp only [tryStart]
  split
  next => left; rfl
  next hlen =>
    split
    next => left; rfl
    next hseen =>
      right
      exact ⟨_, rfl, hseen, Nat.le_of_not_lt hlen, rfl⟩

/-- Splitting a character list at a distinguished space character is
unambiguous when neither left part contains a space. -/
theorem append_cons_space_inj : ∀ {l1 l2 r1 r2 : List Char},
    (' ' : Char) ∉ l1 → (' ' : Char) ∉ l2 →
    l1 ++ ' ' :: r1 = l2 ++ ' ' :: r2 → l1 = l2 ∧ r1 = r2 := by
  intro l1
  induction l1 with
  | nil =>
    intro l2 r1 r2 _ h2 h
    cases l2 with
    | nil => simpa using h
    | cons c cs =>
      simp only [List.nil_append, List.cons_append, List.cons_eq_cons] at h
      exact absurd (h.1 ▸ List.mem_cons_self c cs) h2
  | cons a as ih =>
    intro l2 r1 r2 h1 h2 h
    cases l2 with
    | nil =>
      simp only [List.nil_append, List.cons_append, List.cons_eq_cons] at h
      exact absurd (h.1 ▸ List.mem_cons_self a as) h1
    | cons c cs =>
      simp only [List.cons_append, List.cons_eq_cons] at h
      obtain ⟨hac, htl⟩ := h
      have := ih (fun hmem => h1 (List.mem_cons_of_mem a hmem))
        (fun hmem => h2 (List.mem_cons_of_mem c hmem)) htl
      exact ⟨by rw [hac, this.1], this.2⟩

/-- Two space-joined word pairs with space-free first words are equal as
strings only when the words agree. -/
theorem joinSpace_pair_inj {a b c d : String}
    (ha : (' ' : Char) ∉ a.data) (hc : (' ' : Char) ∉ c.data)
    (h : joinSpace [a, b] = joinSpace [c, d]) : a = c ∧ b = d := by
  have hdata : a.data ++ ' ' :: b.data = c.data ++ ' ' :: d.data := by
    have h' := congrArg String.data h
    simpa [joinSpace, String.data_append] using h'
  obtain ⟨h1, h2⟩ := append_cons_space_inj ha hc hdata
  exact ⟨String.ext h1, String.ext h2⟩

/-- When the boundary keys of two n-grams agree and their words are
space-free, the last two words of the first equal the first two words of
the second. -/
theorem boundary_words_eq {f t : NgramEntry}
    (hf2 : 2 ≤ f.words.length) (ht2 : 2 ≤ t.words.length)
    (hfsp : ∀ w ∈ f.words, (' ' : Char) ∉ w.data)
    (htsp : ∀ w ∈ t.words, (' ' : Char) ∉ w.data)
    (hk : endKey f = startKey t) :
    f.words.drop (f.words.length - 2) = t.words.take 2 := by
  have hlend : (f.words.drop (f.words.length - 2)).length = 2 := by
    rw [List.length_drop]
    omega
  have hlent : (t.words.take 2).length = 2 := by
    rw [List.length_take]
    omega
  obtain ⟨a, b, hab⟩ := List.length_eq_two.mp hlend
  obtain ⟨c, d, hcd⟩ := List.length_eq_two.mp hlent
  have hamem : a ∈ f.words :=
    List.mem_of_mem_drop (hab ▸ List.mem_cons_self a [b])
  have hcmem : c ∈ t.words :=
    List.mem_of_mem_take (hcd ▸ List.mem_cons_self c [d])
  have hj : joinSpace [a, b] = joinSpace [c, d] := by
    have := hk
    rw [endKey, startKey, hab, hcd] at this
    exact this
  obtain ⟨h1, h2⟩ := joinSpace_pair_inj (hfsp a hamem) (htsp c hcmem) hj
  rw [hab, hcd, h1, h2]

/-- Upgrade a consecutive-pair relation using facts about the list's
members. -/
theorem chain'_imp_of_mem {α : Type} {R S : α → α → Prop} :
    ∀ {l : List α}, (∀ a ∈ l, ∀ b ∈ l, R a b → S a b) → l.Chain' R → l.Chain' S := by
  intro l
  induction l with
  | nil => intro _ _; exact List.chain'_nil
  | cons x xs ih =>
    intro h hch
    cases xs with
    | nil => exact List.chain'_singleton x
    | cons y ys =>
      rw [List.chain'_cons] at hch ⊢
      refine ⟨h x (by simp) y (by simp) hch.1, ?_⟩
      exact ih (fun a ha b hb => h a (List.mem_cons_of_mem x ha) b (List.mem_cons_of_mem x hb))
        hch.2

/-- Lift a state property through the best-chains outer loops. -/
theorem bestSearch_prop (sw ew : EntryMap) (fileNames : List String)
    (P : List BestChain × List String → Prop)
    (hP0 : P ([], []))
    (hstep : ∀ st p, p ∈ ew → ∀ start, start ∈ p.2 →
      P st → P (tryStart sw fileNames st start)) :
    P (ew.foldl (fun st p =>
        p.2.foldl (fun st start => tryStart sw fileNames st start) st) ([], [])) := by
  refine foldl_preserve (P := P) ?_ ([], []) hP0
  intro st p hp h
  refine foldl_preserve (P := P) ?_ st h
  intro st' start hstart h'
  exact hstep st' p hp start hstart h'

/-! ## Claim C9: the implicit minimum-files floor -/

/-- Three 3-grams with mixed file data: the first and last carry only
frequency counts (`files = none`), the middle one carries a one-file
membership set — the shape a report sees when some orders load from the
index and others fall back to the frequency cache. -/
def c9Entries : List NgramEntry :=
  [⟨["a", "b", "c"], 3, none, 2⟩,
   ⟨["b", "c", "d"], 3, some [7], 1⟩,
   ⟨["c", "d", "e"], 3, none, 2⟩]

/-- Claim C9 counterexample: the 3-hop strategy, asked with `minFiles = 0`
(silently floored to 2), still returns a chain whose reported file count
is 1 — the `to.files == nil` path never re-checks the estimated count
against the floor. -/
theorem minfiles_floor_counterexample :
    ∃ c ∈ generateLinkedNgrams ["f0"] 0 false c9Entries, c.fileCount < 2 := by
  decide

/-- Claim C9 as amended: every chain of a pairwise 2-hop report has file
count at least 2 whatever the requested `minFiles` (including 0 and 1) and
whatever entries were loaded; a 3-hop report satisfies the same floor
provided the loaded n-grams uniformly carry file-membership data, or
uniformly lack it with occurrence counts at least 2 (as the pruned
frequency cache guarantees).  With mixed file data the 3-hop strategy can
return a smaller count. -/
theorem minfiles_floor_amended (fileNames : List String) (minFiles0 : Nat)
    (skip : Bool) (entries : List NgramEntry) :
    (∀ c ∈ generateRecurringText fileNames minFiles0 skip entries, 2 ≤ c.fileCount) ∧
    (((∀ e ∈ entries, e.files.isSome) ∨
        (∀ e ∈ entries, e.files = none ∧ 2 ≤ e.count)) →
      ∀ c ∈ generateLinkedNgrams fileNames minFiles0 skip entries, 2 ≤ c.fileCount) := by
  constructor
  · intro c hc
    refine recurringSearch_prop fileNames minFiles0 _ _ (fun c => 2 ≤ c.fileCount)
      ?_ c (mem_generateRecurringText hc)
    intro st p _ f _ t _ hst c' hc'
    rcases tryPair_spec fileNames minFiles0 st f t with hsame | ⟨ch, heq, _, _, _, hbound⟩
    · rw [hsame] at hc'
      exact hst c' hc'
    · rw [heq] at hc'
      rcases List.mem_append.mp hc' with h | h
      · exact hst c' h
      · rw [List.mem_singleton] at h
        subst h
        by_cases hlt : minFiles0 < 2
        · rw [if_pos hlt] at hbound; exact hbound
        · rw [if_neg hlt] at hbound
          exact Nat.le_trans (Nat.le_of_not_lt hlt) hbound
  · intro huniform c hc
    have h2 : 2 ≤ (if minFiles0 < 2 then 2 else minFiles0) := by
      by_cases h : minFiles0 < 2
      · rw [if_pos h]
      · rw [if_neg h]; exact Nat.le_of_not_lt h
    refine linkedSearch_prop fileNames (if minFiles0 < 2 then 2 else minFiles0) _ _
      (fun c => 2 ≤ c.fileCount) ?_ c (mem_generateLinkedNgrams hc)
    intro st p hp f hf m hm t ht _ hst c' hc'
    rcases tryTriple_spec fileNames (if minFiles0 < 2 then 2 else minFiles0) st f m t
        (intersectFiles f m) with hsame | ⟨ch, heq, _, hg2, hfc⟩
    · rw [hsame] at hc'
      exact hst c' hc'
    · rw [heq] at hc'
      rcases List.mem_append.mp hc' with h | h
      · exact hst c' h
      · rw [List.mem_singleton] at h
        subst h
        have hinv := buildMaps_inv skip entries
        have hfmem : f ∈ entries := (hinv.1 p hp f hf).1
        have hmmem : m ∈ entries := (mapInv_get hinv.2 p.1 m hm).1
        have htmem : t ∈ entries := (mapInv_get hinv.2 (endKey m) t ht).1
        rcases huniform with hall | hnone
        · have hts : t.files.isSome := hall t htmem
          have hnn : ¬(t.files.isNone = true) := by
            cases hx : t.files with
            | none => rw [hx] at hts; simp at hts
            | some _ => simp
          rw [hfc, if_neg hnn]
          have hge : ¬((filterShared (intersectFiles f m) t).length <
              (if minFiles0 < 2 then 2 else minFiles0)) :=
            fun hlt => hg2 ⟨hlt, hts⟩
          exact Nat.le_trans h2 (Nat.le_of_not_lt hge)
        · have hfn : t.files = none := (hnone t htmem).1
          rw [hfc, if_pos (by rw [hfn]; rfl)]
          exact Nat.le_min.mpr
            ⟨Nat.le_min.mpr ⟨(hnone f hfmem).2, (hnone m hmmem).2⟩, (hnone t htmem).2⟩

/-- Three 3-grams over two shared files, all with file-membership data. -/
def c9WitnessEntries : List NgramEntry :=
  [⟨["a", "b", "c"], 3, some [0, 1], 2⟩,
   ⟨["b", "c", "d"], 3, some [0, 1], 2⟩,
   ⟨["c", "d", "e"], 3, some [0, 1], 2⟩]

/-- Witness for `minfiles_floor_amended` with `minFiles = 0`: the pairwise
floor applied as is, and the 3-hop floor with its uniformity condition
discharged on uniformly file-backed entries. -/
theorem minfiles_floor_amended_witness :
    (∀ c ∈ generateRecurringText ["f0", "f1"] 0 false c9WitnessEntries,
        2 ≤ c.fileCount) ∧
    (∀ c ∈ generateLinkedNgrams ["f0", "f1"] 0 false c9WitnessEntries,
        2 ≤ c.fileCount) :=
  ⟨(minfiles_floor_amended ["f0", "f1"] 0 false c9WitnessEntries).1,
   (minfiles_floor_amended ["f0", "f1"] 0 false c9WitnessEntries).2
     (Or.inl (by decide))⟩

/-! ## Claim C3: dedup by merged text -/

/-- Four n-grams over the phrase `a b c d e` shared by two files: the
pairs (`a b c d`, `c d e`) and (`a b c`, `b c d e`) merge to the same
text but carry different `seen` keys. -/
def c3Entries : List NgramEntry :=
  [⟨["a", "b", "c", "d"], 4, some [0, 1], 2⟩,
   ⟨["c", "d", "e"], 3, some [0, 1], 2⟩,
   ⟨["a", "b", "c"], 3, some [0, 1], 2⟩,
   ⟨["b", "c", "d", "e"], 4, some [0, 1], 2⟩]

/-- Claim C3 counterexample: the pairwise strategy dedups by the
`from | to` phrase-pair key, not by merged text, so one report carries two
chains with the identical merged text `a b c d e`. -/
theorem merged_text_dedup_counterexample :
    (generateRecurringText ["f0", "f1"] 2 false c3Entries).map
        (fun c => c.fullText) = ["a b c d e", "a b c d e"] ∧
    ¬ (generateRecurringText ["f0", "f1"] 2 false c3Entries).Pairwise
        (fun a b => a.fullText ≠ b.fullText) := by
  decide

/-- Claim C3 as amended: only the greedy best-chains strategy deduplicates
by the exact merged-text string — no two chains of a best-chains report
share a merged full text.  (The pairwise and 3-hop strategies dedup by
their phrase-tuple keys, which does not prevent equal merged texts.) -/
theorem best_chains_dedup_amended (fileNames : List String) (skip : Bool)
    (entries : List NgramEntry) :
    (generateBestChains fileNames skip entries).Pairwise
      (fun a b => a.fullText ≠ b.fullText) := by
  have hsymm : Symmetric (fun a b : BestChain => a.fullText ≠ b.fullText) :=
    fun a b h hba => h hba.symm
  have hsearch : (bestSearch (buildMaps skip entries).2 (buildMaps skip entries).1
      fileNames).Pairwise (fun a b => a.fullText ≠ b.fullText) := by
    unfold bestSearch
    have hmain := bestSearch_prop (buildMaps skip entries).2 (buildMaps skip entries).1
      fileNames
      (P := fun st => st.1.Pairwise (fun a b => a.fullText ≠ b.fullText) ∧
        ∀ c ∈ st.1, c.fullText ∈ st.2)
      ⟨List.Pairwise.nil, fun c hc => absurd hc (List.not_mem_nil c)⟩ ?_
    · exact hmain.1
    · intro st p _ start _ hP
      obtain ⟨hpw, hseen⟩ := hP
      rcases tryStart_spec _ fileNames st start with hsame | ⟨bc, heq, hnot, _, _⟩
      · rw [hsame]
        exact ⟨hpw, hseen⟩
      · rw [heq]
        constructor
        · refine List.pairwise_append.mpr ⟨hpw, List.pairwise_singleton _ _, ?_⟩
          intro a ha b hb
          rw [List.mem_singleton] at hb
          subst hb
          intro hcon
          exact hnot (hcon ▸ hseen a ha)
        · intro c hc
          rcases List.mem_append.mp hc with h | h
          · exact List.mem_append.mpr (Or.inl (hseen c h))
          · rw [List.mem_singleton] at h
            subst h
            exact List.mem_append.mpr (Or.inr (List.mem_singleton_self _))
  have hperm := List.perm_insertionSort bestOrd
    (bestSearch (buildMaps skip entries).2 (buildMaps skip entries).1 fileNames)
  have hsorted := (hperm.pairwise_iff (fun hxy hyx => hxy hyx.symm)).mpr hsearch
  show ((bestSearch (buildMaps skip entries).2 (buildMaps skip entries).1
      fileNames).insertionSort bestOrd).take 100 |>.Pairwise
      (fun a b => a.fullText ≠ b.fullText)
  exact hsorted.sublist (List.take_sublist 100 _)

/-! ## Claim C2: chain validity -/

/-- Three 3-grams whose file sets first intersect to nothing and then are
re-seeded by a 3-file link: the greedy chain `a b c → b c d → c d e` ends
with shared set `{1,2,3}` although two of its segments sit in one file
each. -/
def c2Entries : List NgramEntry :=
  [⟨["a", "b", "c"], 3, some [0], 1⟩,
   ⟨["b", "c", "d"], 3, some [1], 1⟩,
   ⟨["c", "d", "e"], 3, some [1, 2, 3], 3⟩]

/-- Claim C2 counterexample: a best-chains report contains a chain whose
reported file count (3) exceeds a segment's reported count (1), so the
file count is not bounded by the minimum of the segment counts. -/
theorem chain_validity_counterexample :
    ∃ c ∈ generateBestChains ["f0", "f1", "f2", "f3"] false c2Entries,
      ∃ s ∈ c.chain, s.count < c.fileCount := by
  decide

/-- A duplicate-free intersection is no longer than either side. -/
theorem filter_mem_length_le {fs ts : List Nat} (hnd : fs.Nodup) :
    (fs.filter (fun x => x ∈ ts)).length ≤ ts.length := by
  have hsub : (fs.filter (fun x => x ∈ ts)) ⊆ ts := by
    intro x hx
    exact of_decide_eq_true (List.mem_filter.mp hx).2
  exact (List.subperm_of_subset (hnd.filter _) hsub).length_le

/-- Claim C2 as amended: for chains of the pairwise and 3-hop strategies
the segment boundaries overlap word-for-word and the reported file count
is at most each segment's reported count (hence at most their minimum);
for greedy best-chains the boundary overlap still holds for every adjacent
segment pair, but the file-count bound does not (see the counterexample).
`hwf` states what `loadNgramsWithFiles` guarantees — a file-backed entry's
count is the size of its duplicate-free file set — and `hsp` that decoded
words are nonempty and space-free, as every word table built from
whitespace tokenization satisfies. -/
theorem chain_validity_amended (fileNames : List String) (minFiles0 : Nat)
    (skip : Bool) (entries : List NgramEntry)
    (hwf : ∀ e ∈ entries, ∀ fs, e.files = some fs → fs.Nodup ∧ e.count = fs.length)
    (hsp : ∀ e ∈ entries, ∀ w ∈ e.words, (' ' : Char) ∉ w.data) :
    (∀ c ∈ generateRecurringText fileNames minFiles0 skip entries,
      ∃ f t, f ∈ entries ∧ t ∈ entries ∧
        c.segments.map (fun s => (s.phrase, s.count)) =
          [(phrase f, f.count), (phrase t, t.count)] ∧
        f.words.drop (f.words.length - 2) = t.words.take 2 ∧
        c.fileCount ≤ f.count ∧ c.fileCount ≤ t.count) ∧
    (∀ c ∈ generateLinkedNgrams fileNames minFiles0 skip entries,
      ∃ f m t, f ∈ entries ∧ m ∈ entries ∧ t ∈ entries ∧
        c.chain.map (fun s => (s.phrase, s.count)) =
          [(phrase f, f.count), (phrase m, m.count), (phrase t, t.count)] ∧
        f.words.drop (f.words.length - 2) = m.words.take 2 ∧
        m.words.drop (m.words.length - 2) = t.words.take 2 ∧
        c.fileCount ≤ f.count ∧ c.fileCount ≤ m.count ∧ c.fileCount ≤ t.count) ∧
    (∀ c ∈ generateBestChains fileNames skip entries,
      ∃ es : List NgramEntry, 2 ≤ es.length ∧ (∀ e ∈ es, e ∈ entries) ∧
        c.chain = es.map (fun e => (⟨phrase e, e.n, e.count⟩ : ChainNode)) ∧
        es.Chain' (fun a b => a.words.drop (a.words.length - 2) = b.words.take 2)) := by
  obtain ⟨hewInv, hswInv⟩ := buildMaps_inv skip entries
  refine ⟨?_, ?_, ?_⟩
  · intro c hc
    refine recurringSearch_prop fileNames minFiles0 _ _
      (fun c => ∃ f t, f ∈ entries ∧ t ∈ entries ∧
        c.segments.map (fun s => (s.phrase, s.count)) =
          [(phrase f, f.count), (phrase t, t.count)] ∧
        f.words.drop (f.words.length - 2) = t.words.take 2 ∧
        c.fileCount ≤ f.count ∧ c.fileCount ≤ t.count) ?_ c
      (mem_generateRecurringText hc)
    intro st p hp f hf t ht hst c' hc'
    rcases tryPair_spec fileNames minFiles0 st f t with
      hsame | ⟨ch, heq, hsegs, hguard, hfc, _⟩
    · rw [hsame] at hc'
      exact hst c' hc'
    · rw [heq] at hc'
      rcases List.mem_append.mp hc' with h | h
      · exact hst c' h
      · rw [List.mem_singleton] at h
        subst h
        obtain ⟨hfmem, hf2, hfkey⟩ := hewInv p hp f hf
        obtain ⟨htmem, ht2, htkey⟩ := mapInv_get hswInv p.1 t ht
        refine ⟨f, t, hfmem, htmem, hsegs, ?_, ?_, ?_⟩
        · exact boundary_words_eq hf2 ht2 (hsp f hfmem) (hsp t htmem)
            (hfkey.trans htkey.symm)
        · cases hff : f.files with
          | none =>
            rw [hfc, if_pos (by rw [hff]; rfl)]
            exact Nat.min_le_left _ _
          | some fs =>
            rw [hfc, if_neg (by rw [hff]; simp)]
            obtain ⟨hnd, hcnt⟩ := hwf f hfmem fs hff
            cases htf : t.files with
            | none =>
              exact absurd ⟨by simp [intersectFiles, hff, htf], by rw [hff]; rfl⟩ hguard
            | some ts =>
              rw [hcnt]
              simp only [intersectFiles, hff, htf]
              exact List.length_filter_le _ fs
        · cases hff : f.files with
          | none =>
            rw [hfc, if_pos (by rw [hff]; rfl)]
            exact Nat.min_le_right _ _
          | some fs =>
            rw [hfc, if_neg (by rw [hff]; simp)]
            obtain ⟨hnd, _⟩ := hwf f hfmem fs hff
            cases htf : t.files with
            | none =>
              exact absurd ⟨by simp [intersectFiles, hff, htf], by rw [hff]; rfl⟩ hguard
            | some ts =>
              obtain ⟨_, hcnt'⟩ := hwf t htmem ts htf
              rw [hcnt']
              simp only [intersectFiles, hff, htf]
              exact filter_mem_length_le hnd
  · intro c hc
    have h2 : 2 ≤ (if minFiles0 < 2 then 2 else minFiles0) := by
      by_cases h : minFiles0 < 2
      · rw [if_pos h]
      · rw [if_neg h]; exact Nat.le_of_not_lt h
    refine linkedSearch_prop fileNames (if minFiles0 < 2 then 2 else minFiles0) _ _
      (fun c => ∃ f m t, f ∈ entries ∧ m ∈ entries ∧ t ∈ entries ∧
        c.chain.map (fun s => (s.phrase, s.count)) =
          [(phrase f, f.count), (phrase m, m.count), (phrase t, t.count)] ∧
        f.words.drop (f.words.length - 2) = m.words.take 2 ∧
        m.words.drop (m.words.length - 2) = t.words.take 2 ∧
        c.fileCount ≤ f.count ∧ c.fileCount ≤ m.count ∧ c.fileCount ≤ t.count)
      ?_ c (mem_generateLinkedNgrams hc)
    intro st p hp f hf m hm t ht _ hst c' hc'
    rcases tryTriple_spec fileNames (if minFiles0 < 2 then 2 else minFiles0) st f m t
        (intersectFiles f m) with hsame | ⟨ch, heq, hsegs, hguard, hfc⟩
    · rw [hsame] at hc'
      exact hst c' hc'
    · rw [heq] at hc'
      rcases List.mem_append.mp hc' with h | h
      · exact hst c' h
      · rw [List.mem_singleton] at h
        subst h
        obtain ⟨hfmem, hf2, hfkey⟩ := hewInv p hp f hf
        obtain ⟨hmmem, hm2, hmkey⟩ := mapInv_get hswInv p.1 m hm
        obtain ⟨htmem, ht2, htkey⟩ := mapInv_get hswInv (endKey m) t ht
        refine ⟨f, m, t, hfmem, hmmem, htmem, hsegs, ?_, ?_, ?_⟩
        · exact boundary_words_eq hf2 hm2 (hsp f hfmem) (hsp m hmmem)
            (hfkey.trans hmkey.symm)
        · exact boundary_words_eq hm2 ht2 (hsp m hmmem) (hsp t htmem) htkey.symm
        · cases htf : t.files with
          | none =>
            rw [hfc, if_pos (by rw [htf]; rfl)]
            refine ⟨?_, ?_, ?_⟩
            · exact Nat.le_trans (Nat.min_le_left _ _) (Nat.min_le_left _ _)
            · exact Nat.le_trans (Nat.min_le_left _ _) (Nat.min_le_right _ _)
            · exact Nat.min_le_right _ _
          | some tf =>
            rw [hfc, if_neg (by rw [htf]; simp)]
            have hts : t.files.isSome := by rw [htf]; rfl
            have hL : (if minFiles0 < 2 then 2 else minFiles0) ≤
                (filterShared (intersectFiles f m) t).length :=
              Nat.le_of_not_lt (fun hlt => hguard ⟨hlt, hts⟩)
            have hLpos : 0 < (filterShared (intersectFiles f m) t).length :=
              Nat.lt_of_lt_of_le Nat.zero_lt_two (Nat.le_trans h2 hL)
            cases hff : f.files with
            | none =>
              rw [filterShared, htf] at hLpos ⊢
              simp [intersectFiles, hff] at hLpos
            | some fs =>
              cases hmf : m.files with
              | none =>
                rw [filterShared, htf] at hLpos ⊢
                simp [intersectFiles, hff, hmf] at hLpos
              | some ms =>
                obtain ⟨hndf, hcntf⟩ := hwf f hfmem fs hff
                obtain ⟨_, hcntm⟩ := hwf m hmmem ms hmf
                obtain ⟨_, hcntt⟩ := hwf t htmem tf htf
                rw [filterShared, htf]
                simp only [intersectFiles, hff, hmf]
                have hnd2 : (fs.filter (fun x => x ∈ ms)).Nodup := hndf.filter _
                refine ⟨?_, ?_, ?_⟩
                · rw [hcntf]
                  exact Nat.le_trans (List.length_filter_le _ _)
                    (List.length_filter_le _ _)
                · rw [hcntm]
                  exact Nat.le_trans (List.length_filter_le _ _)
                    (filter_mem_length_le hndf)
                · rw [hcntt]
                  exact filter_mem_length_le hnd2
  · intro c hc
    have hget : ∀ k e, e ∈ mapGet (buildMaps skip entries).2 k →
        (e ∈ entries ∧ 2 ≤ e.words.length) ∧ startKey e = k := by
      intro k e he
      obtain ⟨h1, h2, h3⟩ := mapInv_get hswInv k e he
      exact ⟨⟨h1, h2⟩, h3⟩
    have hmain : ∀ c' ∈ bestSearch (buildMaps skip entries).2
        (buildMaps skip entries).1 fileNames,
        ∃ es : List NgramEntry, 2 ≤ es.length ∧ (∀ e ∈ es, e ∈ entries) ∧
          c'.chain = es.map (fun e => (⟨phrase e, e.n, e.count⟩ : ChainNode)) ∧
          es.Chain' (fun a b => endKey a = startKey b) ∧
          (∀ e ∈ es, 2 ≤ e.words.length) := by
      unfold bestSearch
      refine fun c' hc' => bestSearch_prop (buildMaps skip entries).2
        (buildMaps skip entries).1 fileNames
        (P := fun st => ∀ c'' ∈ st.1, ∃ es : List NgramEntry, 2 ≤ es.length ∧
          (∀ e ∈ es, e ∈ entries) ∧
          c''.chain = es.map (fun e => (⟨phrase e, e.n, e.count⟩ : ChainNode)) ∧
          es.Chain' (fun a b => endKey a = startKey b) ∧
          (∀ e ∈ es, 2 ≤ e.words.length))
        (fun c'' hc'' => absurd hc'' (List.not_mem_nil c'')) ?_ c' hc'
      intro st p hp start hstart hP
      rcases tryStart_spec (buildMaps skip entries).2 fileNames st start with
        hsame | ⟨bc, hres, _, hlen2, hchain⟩
      · rw [hsame]
        exact hP
      · rw [hres]
        intro c'' hc''
        rcases List.mem_append.mp hc'' with h | h
        · exact hP c'' h
        · rw [List.mem_singleton] at h
          subst h
          obtain ⟨hsmem, hs2, _⟩ := hewInv p hp start hstart
          have hext := extendChain_spec (buildMaps skip entries).2
              (fun e => e ∈ entries ∧ 2 ≤ e.words.length) hget 10 [start]
              (start.files.getD []) start rfl
              (by intro e he; rw [List.mem_singleton] at he; exact he ▸ ⟨hsmem, hs2⟩)
              (List.chain'_singleton start)
          exact ⟨(extendChain 10 (buildMaps skip entries).2 [start]
              (start.files.getD []) start).1, hlen2,
              fun e he => (hext.1 e he).1, hchain, hext.2,
              fun e he => (hext.1 e he).2⟩
    obtain ⟨es, hlen, hmem, hch, hkeys, hw2⟩ := hmain c (mem_generateBestChains hc)
    refine ⟨es, hlen, hmem, hch, ?_⟩
    refine chain'_imp_of_mem ?_ hkeys
    intro a ha b hb hab
    exact boundary_words_eq (hw2 a ha) (hw2 b hb)
      (hsp a (hmem a ha)) (hsp b (hmem b hb)) hab

/-- Two file-backed 4-grams joined at `c d`. -/
def c2WitnessEntries : List NgramEntry :=
  [⟨["a", "b", "c", "d"], 4, some [0, 1], 2⟩,
   ⟨["c", "d", "e", "f"], 4, some [0, 1], 2⟩]

/-- Witness for `chain_validity_amended` at a concrete two-entry load. -/
theorem chain_validity_amended_witness :
    ((∀ e ∈ c2WitnessEntries, ∀ fs, e.files = some fs →
        fs.Nodup ∧ e.count = fs.length) ∧
     (∀ e ∈ c2WitnessEntries, ∀ w ∈ e.words, (' ' : Char) ∉ w.data)) ∧
    ((∀ c ∈ generateRecurringText ["f0", "f1"] 2 false c2WitnessEntries,
      ∃ f t, f ∈ c2WitnessEntries ∧ t ∈ c2WitnessEntries ∧
        c.segments.map (fun s => (s.phrase, s.count)) =
          [(phrase f, f.count), (phrase t, t.count)] ∧
        f.words.drop (f.words.length - 2) = t.words.take 2 ∧
        c.fileCount ≤ f.count ∧ c.fileCount ≤ t.count) ∧
    (∀ c ∈ generateLinkedNgrams ["f0", "f1"] 2 false c2WitnessEntries,
      ∃ f m t, f ∈ c2WitnessEntries ∧ m ∈ c2WitnessEntries ∧ t ∈ c2WitnessEntries ∧
        c.chain.map (fun s => (s.phrase, s.count)) =
          [(phrase f, f.count), (phrase m, m.count), (phrase t, t.count)] ∧
        f.words.drop (f.words.length - 2) = m.words.take 2 ∧
        m.words.drop (m.words.length - 2) = t.words.take 2 ∧
        c.fileCount ≤ f.count ∧ c.fileCount ≤ m.count ∧ c.fileCount ≤ t.count) ∧
    (∀ c ∈ generateBestChains ["f0", "f1"] false c2WitnessEntries,
      ∃ es : List NgramEntry, 2 ≤ es.length ∧ (∀ e ∈ es, e ∈ c2WitnessEntries) ∧
        c.chain = es.map (fun e => (⟨phrase e, e.n, e.count⟩ : ChainNode)) ∧
        es.Chain' (fun a b => a.words.drop (a.words.length - 2) = b.words.take 2))) :=
  ⟨⟨by decide, by decide⟩,
   chain_validity_amended ["f0", "f1"] 2 false c2WitnessEntries (by decide) (by decide)⟩

/-! ## Claim C1: the three-file end-to-end scenario -/

/-- The spec's scenario corpus: file A, file B, file C in walk order. -/
def scenarioCorpus : List (String × String) :=
  [("a.txt", "the quick brown fox jumps"),
   ("b.txt", "quick brown fox jumps over"),
   ("c.txt", "lazy dog sleeps all day")]

/-- Claim C1 counterexample: the dictionary builder yields a word table of
size 11 for the scenario corpus (the 11 distinct words `all brown day dog
fox jumps lazy over quick sleeps the`), not 9 as the claim states. -/
theorem scenario_word_table_not_nine :
    (sortedWords scenarioCorpus).length = 11 ∧
    (sortedWords scenarioCorpus).length ≠ 9 := by
  decide

/-- Claim C1 as amended: the word table has 11 entries and the file table
3; the 4-gram index assigns ID 1 to `quick brown fox jumps` (word IDs
`8|1|4|5`) with file membership `{A, B}` (count 2); but the pairwise chain
search run on that index with `minFiles = 2` returns no chain at all — in
particular not the merged chain `the quick brown fox jumps over`, whose
endpoint segments (`...the...` only in A, `...over...` only in B) can
never share 2 files.  The search result is evaluated through the
serialized index lines and the report loader, exactly as the server
does. -/
theorem scenario_amended :
    (sortedWords scenarioCorpus).length = 11 ∧
    (fileTable scenarioCorpus).length = 3 ∧
    (ngramTable scenarioCorpus 4).get? 1 = some [8, 1, 4, 5] ∧
    ([8, 1, 4, 5] : List Nat).filterMap (fun i => (sortedWords scenarioCorpus).get? i) =
      ["quick", "brown", "fox", "jumps"] ∧
    (ngramIndex scenarioCorpus 4).get? 1 = some [0, 1] ∧
    generateRecurringText (fileTable scenarioCorpus) 2 false
      (loadNgramsWithFiles (sortedWords scenarioCorpus) 4
        (ngramLines scenarioCorpus 4) (indexLines scenarioCorpus 4) 200) = [] := by
  decide

/-! ## Claim C8: `minFiles` larger than the corpus -/

/-- A one-file corpus whose 4-gram `d e d e` (ID 3) and 5-gram
`d e d e f` (ID 3) share a boundary. -/
def bugCorpus : List (String × String) :=
  [("f.txt", "a b c d e d e f")]

/-- The entries a recurring-text report with `minN = 4` loads for
`bugCorpus` (orders 4 and 5), through the persisted index lines and the
loader's comma-split parse. -/
def bugEntries : List NgramEntry :=
  loadNgramsWithFiles (sortedWords bugCorpus) 4
    (ngramLines bugCorpus 4) (indexLines bugCorpus 4) 200 ++
  loadNgramsWithFiles (sortedWords bugCorpus) 5
    (ngramLines bugCorpus 5) (indexLines bugCorpus 5) 200

/-- Claim C8 at the failing input: the corpus has 1 file, the request asks
for `minFiles = 2 > 1`, yet the report is not empty — it returns the chain
`d e d e d e f` with file count 2.  `loadNgramsWithFiles` splits the index
line `3,[0]` on every comma without stripping the `gid,[...]` wrapper its
own format comment and the writer use, so `Atoi` turns the n-gram ID 3 and
the mangled `[0]` into file IDs `{3, 0}` for both n-grams, and the pair
passes the 2-file threshold. -/
theorem minfiles_boundary_code_eval :
    (fileTable bugCorpus).length = 1 ∧
    (generateRecurringText (fileTable bugCorpus) 2 false bugEntries).map
      (fun c => (c.fullText, c.fileCount)) = [("d e d e d e f", 2)] := by
  decide

/-! ## Claim C10: the token-mode normalizer (`CleanToTokens`)

`CleanToTokens` replaces `\n`, `\r`, `\t` with spaces, replaces every rune
matching `[^a-zA-Z0-9\s]` with a space (RE2's `\s` is `[\t\n\f\r ]`),
collapses every `\s+` run to a single space, and trims Unicode whitespace
from both ends. -/

/-- RE2 `\s`: `[\t\n\f\r ]`. -/
def isRe2Space (c : Char) : Bool :=
  c = '\t' || c = '\n' || c.toNat = 12 || c = '\r' || c = ' '

/-- `[a-zA-Z0-9]`. -/
def isAsciiAlnum (c : Char) : Bool :=
  (97 ≤ c.toNat && c.toNat ≤ 122) || (65 ≤ c.toNat && c.toNat ≤ 90) ||
  (48 ≤ c.toNat && c.toNat ≤ 57)

/-- The three `strings.ReplaceAll` calls for `\n`, `\r`, `\t`: their
targets are disjoint and the replacement is none of them, so the three
sequential passes equal one map. -/
def replaceNlCrTab (l : List Char) : List Char :=
  l.map (fun c => if c = '\n' || c = '\r' || c = '\t' then ' ' else c)

/-- `[^a-zA-Z0-9\s]` → `" "`: each matched rune becomes one space. -/
def replaceNonAlnum (l : List Char) : List Char :=
  l.map (fun c => if isAsciiAlnum c || isRe2Space c then c else ' ')

/-- `\s+` → `" "`: each maximal whitespace run becomes one space. -/
def collapseWs : List Char → List Char
  | [] => []
  | c :: rest =>
    if isRe2Space c then ' ' :: collapseWs (rest.dropWhile isRe2Space)
    else c :: collapseWs rest
  termination_by l => l.length
  decreasing_by
  · exact Nat.lt_succ_of_le ((List.dropWhile_sublist _).length_le)
  · exact Nat.lt_succ_self _

/-- Go `strings.TrimSpace`: drop Unicode whitespace from both ends. -/
def trimSpaceList (l : List Char) : List Char :=
  ((l.dropWhile isGoSpace).reverse.dropWhile isGoSpace).reverse

/-- `CleanToTokens`. -/
def cleanToTokens (s : String) : String :=
  ⟨trimSpaceList (collapseWs (replaceNonAlnum (replaceNlCrTab s.data)))⟩

theorem dropWhile_head_not {α : Type} {p : α → Bool} :
    ∀ (l : List α) (c : α), (l.dropWhile p).head? = some c → p c = false
  | [], c, h => by simp at h
  | a :: as, c, h => by
    by_cases hp : p a
    · rw [List.dropWhile_cons, if_pos hp] at h
      exact dropWhile_head_not as c h
    · rw [List.dropWhile_cons, if_neg hp] at h
      rw [List.head?_cons, Option.some_inj] at h
      subst h
      exact Bool.eq_false_iff.mpr hp

theorem collapseWs_chars : ∀ (l : List Char), ∀ c ∈ collapseWs l,
    c = ' ' ∨ (c ∈ l ∧ isRe2Space c = false)
  | [] => by simp [collapseWs]
  | c0 :: rest => by
    intro c hc
    by_cases h0 : isRe2Space c0
    · rw [collapseWs, if_pos h0] at hc
      rcases List.mem_cons.mp hc with rfl | hc'
      · exact Or.inl rfl
      · rcases collapseWs_chars _ c hc' with h | ⟨hmem, hsp⟩
        · exact Or.inl h
        · exact Or.inr ⟨List.mem_cons_of_mem _ ((List.dropWhile_sublist isRe2Space).subset hmem), hsp⟩
    · rw [collapseWs, if_neg h0] at hc
      rcases List.mem_cons.mp hc with rfl | hc'
      · exact Or.inr ⟨List.mem_cons_self _ _, Bool.eq_false_iff.mpr h0⟩
      · rcases collapseWs_chars _ c hc' with h | ⟨hmem, hsp⟩
        · exact Or.inl h
        · exact Or.inr ⟨List.mem_cons_of_mem _ hmem, hsp⟩
  termination_by l => l.length
  decreasing_by
  · exact Nat.lt_succ_of_le ((List.dropWhile_sublist _).length_le)
  · exact Nat.lt_succ_self _

/-- The head of `collapseWs (l.dropWhile isRe2Space)` is never a space:
after dropping leading whitespace the list starts with a non-space
character, which `collapseWs` keeps as its head. -/
theorem collapseWs_head_ne_space (l : List Char) :
    ∀ b, (collapseWs (l.dropWhile isRe2Space)).head? = some b → b ≠ ' ' := by
  intro b hb
  rcases hm : l.dropWhile isRe2Space with _ | ⟨e, es⟩
  · rw [hm, collapseWs] at hb; cases hb
  · have hesp : isRe2Space e = false :=
      dropWhile_head_not l e (by rw [hm]; rfl)
    rw [hm, collapseWs, if_neg (by rw [hesp]; exact Bool.false_ne_true)] at hb
    rw [List.head?_cons, Option.some_inj] at hb
    subst hb
    intro hcon
    rw [hcon] at hesp
    exact absurd hesp (by decide)

theorem collapseWs_chain' : ∀ (l : List Char),
    (collapseWs l).Chain' (fun a b => ¬(a = ' ' ∧ b = ' '))
  | [] => by rw [collapseWs]; exact List.chain'_nil
  | c0 :: rest => by
    by_cases h0 : isRe2Space c0
    · rw [collapseWs, if_pos h0]
      refine List.chain'_cons'.mpr ⟨?_, collapseWs_chain' (rest.dropWhile isRe2Space)⟩
      intro b hb
      rw [Option.mem_def] at hb
      intro hcon
      exact (collapseWs_head_ne_space rest b hb) hcon.2
    · rw [collapseWs, if_neg h0]
      refine List.chain'_cons'.mpr ⟨?_, collapseWs_chain' rest⟩
      intro b _ hcon
      rw [hcon.1] at h0
      exact h0 (by decide)
  termination_by l => l.length
  decreasing_by
  · exact Nat.lt_succ_of_le ((List.dropWhile_sublist _).length_le)
  · exact Nat.lt_succ_self _

/-- Claim C10: `CleanToTokens` returns a string that is empty or consists
solely of ASCII letters and digits separated by single spaces: every
character is alphanumeric or a space, the first and last characters are
not spaces, and no two adjacent characters are both spaces. -/
theorem cleanToTokens_shape (s : String) :
    (∀ c ∈ (cleanToTokens s).data, isAsciiAlnum c = true ∨ c = ' ') ∧
    (cleanToTokens s).data.head? ≠ some ' ' ∧
    (cleanToTokens s).data.getLast? ≠ some ' ' ∧
    (cleanToTokens s).data.Chain' (fun a b => ¬(a = ' ' ∧ b = ' ')) := by
  set m := collapseWs (replaceNonAlnum (replaceNlCrTab s.data)) with hm
  have hdata : (cleanToTokens s).data = trimSpaceList m := rfl
  set m1 := m.dropWhile isGoSpace with hm1
  -- the trimmed result is a prefix of `m1`, which is a suffix of `m`
  obtain ⟨tr, post, htr, hpost1, hpost2⟩ : ∃ tr post,
      tr = (m1.reverse.dropWhile isGoSpace).reverse ∧
      trimSpaceList m = tr ∧ m1 = tr ++ post := by
    obtain ⟨t, ht⟩ := List.dropWhile_suffix (l := m1.reverse) (p := isGoSpace)
    refine ⟨_, t.reverse, rfl, rfl, ?_⟩
    have := congrArg List.reverse ht
    simpa [List.reverse_append] using this.symm
  obtain ⟨pre, hpre⟩ : ∃ pre, m = pre ++ m1 := by
    obtain ⟨t, ht⟩ := List.dropWhile_suffix (l := m) (p := isGoSpace)
    exact ⟨t, ht.symm⟩
  have hsubm : (cleanToTokens s).data ⊆ m := by
    rw [hdata, hpost1]
    intro c hcmem
    have h1 : c ∈ m1 := by
      rw [hpost2]
      exact List.mem_append.mpr (Or.inl hcmem)
    rw [hpre]
    exact List.mem_append.mpr (Or.inr h1)
  have hchars : ∀ c ∈ m, isAsciiAlnum c = true ∨ c = ' ' := by
    intro c hc
    rcases collapseWs_chars _ c hc with h | ⟨hmem, hsp⟩
    · exact Or.inr h
    · obtain ⟨d, _, hd⟩ := List.mem_map.mp hmem
      by_cases hcond : (isAsciiAlnum d || isRe2Space d) = true
      · rw [if_pos hcond] at hd
        subst hd
        have hcond' : isAsciiAlnum d = true ∨ isRe2Space d = true := by
          simpa using hcond
        rcases hcond' with h' | h'
        · exact Or.inl h'
        · exact Bool.noConfusion (h'.symm.trans hsp)
      · rw [if_neg hcond] at hd
        exact Or.inr hd.symm
  refine ⟨fun c hc => hchars c (hsubm hc), ?_, ?_, ?_⟩
  · intro hhead
    rw [hdata, hpost1] at hhead
    have hne : tr ≠ [] := by
      intro hcon
      rw [hcon] at hhead
      cases hhead
    have hm1head : m1.head? = some ' ' := by
      rw [hpost2, List.head?_append_of_ne_nil _ hne]
      exact hhead
    have := dropWhile_head_not m ' ' hm1head
    exact absurd this (by decide)
  · intro hlast
    rw [hdata, hpost1, htr, List.getLast?_reverse] at hlast
    have := dropWhile_head_not m1.reverse ' ' hlast
    exact absurd this (by decide)
  · have hchain : m.Chain' (fun a b => ¬(a = ' ' ∧ b = ' ')) := collapseWs_chain' _
    have hinfix : (cleanToTokens s).data <:+: m := by
      rw [hdata, hpost1]
      exact ⟨pre, post, by rw [List.append_assoc, hpre, hpost2]⟩
    exact hchain.infix hinfix

end TokenTrove
